import Mathlib

set_option linter.unusedVariables false

/-!
Shallow embedding of the treebank library of the kho/nlp_basic
repository: the `Topology` forest structure, the recursive-descent
treebank parser producing a `ParseTree`, the annotation routines
(`FillSpan`, `StripAnnotation`, `RemoveNone`, `RemapByLabel`), the
table-driven head finder and the string interner.

Modelling conventions:
* Go panics are modelled as `Except.error` / `Option.none` results;
* recursive Go functions whose termination is not structural carry an
  explicit fuel argument (entry points pass a fuel that is provably
  sufficient for all executions the theorems talk about, and fuel
  exhaustion is kept distinguishable from a Go panic);
* `NodeId` (Go `int32`) and Go `int` are modelled as `Int`; no verified
  operation can overflow on the inputs considered;
* out-of-range slice indexing (a Go panic) is modelled by `List.getD` /
  `List.set` defaults; the theorems only exercise in-range executions;
* the repository stores several historical snapshots of the same
  modules; each definition below is translated from the snapshot the
  corresponding claim cites (`src/unnamed/part_000` for `Topology`,
  `src/unnamed/part_003` for the parser, `src/unnamed/part_001` for the
  `ParseTree` routines, `src/unnamed/part_006` for the head finder and
  `src/unnamed/part_005` for the interner).  The parser snapshot also
  keeps a write-only parent array next to `Children`; no operation
  verified here ever reads it, so it is not modelled.
-/

namespace Bimap

/-- NoInt is the sentinel returned for strings that are not in a Map. -/
def NoInt : Int := -1

/-- Map is the bi-directional string/int interner of the bimap package.
The Go `map[string]int` is modelled as an association list (only lookup,
insertion and size are ever used). -/
structure Map where
  strToInt : List (String × Int)
  intToStr : List String
  deriving DecidableEq

/-- New creates an empty Map. -/
def New : Map := ⟨[], []⟩

/-- lookupStr models the Go map read `m.strToInt[s]`. -/
def Map.lookupStr (m : Map) (s : String) : Option Int :=
  (m.strToInt.find? (fun p => p.1 = s)).map Prod.snd

/-- Size returns the size of the map, which is also the next id to be
assigned. -/
def Map.Size (m : Map) : Nat := m.intToStr.length

/-- Add adds the given string into the map and returns its id; `none`
models the panic on an empty string. -/
def Map.Add (m : Map) (s : String) : Option (Map × Int) :=
  if s.length = 0 then none
  else
    match m.lookupStr s with
    | some i => some (m, i)
    | none =>
      let i : Int := m.intToStr.length
      some (⟨m.strToInt ++ [(s, i)], m.intToStr ++ [s]⟩, i)

/-- FindByString finds the id or returns NoInt if the string is not in
the map. -/
def Map.FindByString (m : Map) (s : String) : Int :=
  match m.lookupStr s with
  | some i => i
  | none => NoInt

/-- AppendByString translates a slice of strings and appends the result
to the given slice; new words are also added to the Map.  `none` models
the panic of `Add` on an empty string. -/
def Map.AppendByString (m : Map) (strs : List String) (ints : List Int) :
    Option (Map × List Int) :=
  match strs with
  | [] => some (m, ints)
  | s :: rest =>
    match m.Add s with
    | none => none
    | some (m', i) => m'.AppendByString rest (ints ++ [i])

/-- MapWF is the invariant of a reachable Map: every interned id is a
valid dense index into `intToStr` (Go maps built through `Add` always
satisfy it; `New` trivially does). -/
def MapWF (m : Map) : Prop :=
  ∀ p ∈ m.strToInt, 0 ≤ p.2 ∧ p.2 < (m.intToStr.length : Int)

end Bimap

namespace Heads

/-- Three possible directions of the head. -/
def UNKNOWN : Nat := 0

def HEAD_INITIAL : Nat := 1

def HEAD_FINAL : Nat := 2

/-- HeadRule stores a direction and a mapping from labels to priority
levels; the Go `map[string]int` is modelled as an association list. -/
structure HeadRule where
  Direction : Nat
  Priority : List (String × Nat)
  deriving DecidableEq

/-- lookupPriority models the Go map read `rule.Priority[label]`. -/
def HeadRule.lookupPriority (rule : HeadRule) (label : String) : Option Nat :=
  (rule.Priority.find? (fun p => p.1 = label)).map Prod.snd

/-- LabelPriority returns the priority of a label; labels not in the
table all have the lowest priority `len(Priority)`. -/
def HeadRule.LabelPriority (rule : HeadRule) (label : String) : Nat :=
  match rule.lookupPriority label with
  | some p => p
  | none => rule.Priority.length

/-- TableHeadFinder finds the head by looking up a table of HeadRules. -/
structure TableHeadFinder where
  Table : List (String × HeadRule)
  Fallback : Nat
  deriving DecidableEq

/-- lookupRule models the Go map read `finder.Table[parent]`. -/
def TableHeadFinder.lookupRule (finder : TableHeadFinder) (parent : String) :
    Option HeadRule :=
  (finder.Table.find? (fun p => p.1 = parent)).map Prod.snd

/-- scanUp models the HEAD_INITIAL loop of `TableHeadFinder.FindHead`:
`cs` is the list of children labels still to scan, `j` the index of its
first element, `i` and `p` the best index and priority seen so far. -/
def scanUp (rule : HeadRule) : List String → Nat → Nat → Nat → Nat
  | [], _, i, _ => i
  | c :: cs, j, i, p =>
    if rule.LabelPriority c < p then scanUp rule cs (j + 1) j (rule.LabelPriority c)
    else scanUp rule cs (j + 1) i p

/-- scanDown models the HEAD_FINAL loop: `k` is the number of indices
still to scan (the loop visits `j = k-1, k-2, ..., 0`), `i` and `p` the
best index and priority seen so far. -/
def scanDown (rule : HeadRule) (children : List String) : Nat → Nat → Nat → Nat
  | 0, i, _ => i
  | k + 1, i, p =>
    if rule.LabelPriority (children.getD k "") < p then
      scanDown rule children k k (rule.LabelPriority (children.getD k ""))
    else scanDown rule children k i p

/-- FindHead returns the index of the head child; `none` models the
panics (leaf node, unknown category without fallback, bad direction). -/
def TableHeadFinder.FindHead (finder : TableHeadFinder) (parent : String)
    (children : List String) : Option Nat :=
  if children.length = 0 then none
  else
    match finder.lookupRule parent with
    | none =>
      if finder.Fallback = HEAD_INITIAL then some 0
      else if finder.Fallback = HEAD_FINAL then some (children.length - 1)
      else none
    | some rule =>
      if rule.Direction = HEAD_INITIAL then
        some (scanUp rule children.tail 1 0
          (rule.LabelPriority (children.headD "")))
      else if rule.Direction = HEAD_FINAL then
        some (scanDown rule children (children.length - 1) (children.length - 1)
          (rule.LabelPriority (children.getD (children.length - 1) "")))
      else none

end Heads

namespace Treebank

/-- NodeId is the tree node id in a Topology (Go int32); negative values
are sentinels. -/
abbrev NodeId := Int

/-- NoNodeId represents a non-existent node. -/
def NoNodeId : NodeId := -1

/-- Topology stores the tree structure: a forest over nodes 0..N-1 with
the tree of interest under `Root` (`NoNodeId` when the represented tree
is empty).  The optional `UpLink` cache of the source is not modelled
because no verified operation reads it. -/
structure Topology where
  Root : NodeId
  Children : List (List NodeId)
  deriving DecidableEq

/-- NewEmptyTopology creates an empty topology. -/
def NewEmptyTopology : Topology := ⟨NoNodeId, []⟩

/-- NumNodes returns the total number of nodes in `t`. -/
def Topology.NumNodes (t : Topology) : Nat := t.Children.length

/-- ChildrenAt models the slice read `t.Children[n]`. -/
def Topology.ChildrenAt (t : Topology) (n : NodeId) : List NodeId :=
  t.Children.getD n.toNat []

/-- Leaf tests whether the given node is a leaf in its own tree. -/
def Topology.Leaf (t : Topology) (n : NodeId) : Bool :=
  (t.ChildrenAt n).length = 0

/-- PreTerminal tests whether the given node is a pre-terminal. -/
def Topology.PreTerminal (t : Topology) (n : NodeId) : Bool :=
  (t.ChildrenAt n).length = 1 && t.Leaf ((t.ChildrenAt n).getD 0 NoNodeId)

/-- AddNode adds a node without a parent to the topology and returns the
updated topology together with the node id of the new node. -/
def Topology.AddNode (t : Topology) : Topology × NodeId :=
  ({ t with Children := t.Children ++ [[]] }, (t.NumNodes : Int))

/-- AppendChild appends child as the rightmost child of parent (the
part_000 snapshot performs no checks; the caller must ensure that child
does not already have a parent). -/
def Topology.AppendChild (t : Topology) (parent child : NodeId) : Topology :=
  { t with Children := t.Children.set parent.toNat (t.ChildrenAt parent ++ [child]) }

/-- SetRoot changes the root of `t` (the parser snapshot's `SetRoot`;
the parent-array write of that snapshot is not modelled). -/
def Topology.SetRoot (t : Topology) (r : NodeId) : Topology :=
  { t with Root := r }

/-- setChildrenAt models the direct slice write
`t.children[node] = children` performed by the parser. -/
def Topology.setChildrenAt (t : Topology) (n : NodeId) (cs : List NodeId) : Topology :=
  { t with Children := t.Children.set n.toNat cs }

/-- Disconnect disconnects nodes marked as true in remove from their
parents. -/
def Topology.Disconnect (t : Topology) (remove : List Bool) : Topology :=
  { Root := if t.Root ≠ NoNodeId && remove.getD t.Root.toNat false then NoNodeId else t.Root,
    Children := t.Children.map (fun cs => cs.filter (fun c => !remove.getD c.toNat false)) }

mutual

/-- dfsTraverse of `Topsort`: visits `n`, appending visited nodes to
`ns` and marking them in `visited`; revisiting a marked node is the
"cycle in Topology" panic.  The fuel argument only bounds the recursion
depth of the model; `Topsort` passes a provably sufficient amount. -/
def dfsTraverse (t : Topology) : Nat → NodeId → List NodeId → List Bool →
    Except String (List NodeId × List Bool)
  | 0, _, _, _ => .error "fuel"
  | fuel + 1, n, ns, visited =>
    if visited.getD n.toNat false then .error "cycle in Topology"
    else dfsForest t fuel (t.ChildrenAt n) (ns ++ [n]) (visited.set n.toNat true)
termination_by structural fuel _ _ _ => fuel

/-- dfsForest runs `dfsTraverse` over a list of children in order,
threading the accumulated traversal and visited marks. -/
def dfsForest (t : Topology) : Nat → List NodeId → List NodeId → List Bool →
    Except String (List NodeId × List Bool)
  | 0, _, _, _ => .error "fuel"
  | fuel + 1, cs, ns, visited =>
    match cs with
    | [] => .ok (ns, visited)
    | c :: cs' =>
      match dfsTraverse t fuel c ns visited with
      | .error e => .error e
      | .ok (ns', visited') => dfsForest t fuel cs' ns' visited'
termination_by structural fuel _ _ _ => fuel

end

/-- buildOldToNew models the first loop of `remap`: `oldToNew` starts as
all `NoNodeId` and entry `o` of `newToOld` is mapped to its position. -/
def buildOldToNew (numNodes : Nat) (newToOld : List NodeId) : List NodeId :=
  (List.range newToOld.length).foldl
    (fun acc i => acc.set ((newToOld.getD i NoNodeId).toNat) (i : Int))
    (List.replicate numNodes NoNodeId)

/-- remap of `Topsort`: renumbers the topology so that the traversed
nodes become 0..k-1 in traversal order and returns the old-to-new map. -/
def Topology.remap (t : Topology) (newToOld : List NodeId) : List NodeId × Topology :=
  let oldToNew := buildOldToNew t.NumNodes newToOld
  let newRoot : NodeId := if newToOld.length = 0 then NoNodeId else 0
  let newChildren := newToOld.map
    (fun o => (t.ChildrenAt o).map (fun c => oldToNew.getD c.toNat NoNodeId))
  (oldToNew, { Root := newRoot, Children := newChildren })

/-- Topsort topologically sorts the topology in top-down order and
returns the old-to-new map together with the new topology; the error
"cycle in Topology" models the panic on cyclic input. -/
def Topology.Topsort (t : Topology) : Except String (List NodeId × Topology) :=
  match (if t.Root ≠ NoNodeId then
          dfsTraverse t (2 * t.NumNodes + 2) t.Root [] (List.replicate t.NumNodes false)
         else .ok ([], List.replicate t.NumNodes false)) with
  | .error e => .error e
  | .ok (traverse, _) => .ok (t.remap traverse)

/-- findRootUF models the first loop of the union-find `find`: follows
parent pointers in `p` until a fixpoint. -/
def findRootUF : Nat → List NodeId → NodeId → NodeId
  | 0, _, n => n
  | fuel + 1, p, n =>
    let pn := p.getD n.toNat n
    if pn = n then n else findRootUF fuel p pn

/-- compressUF models the second loop of `find`: path compression
towards the root `r`. -/
def compressUF : Nat → List NodeId → NodeId → NodeId → List NodeId
  | 0, p, _, _ => p
  | fuel + 1, p, n, r =>
    if n = r then p
    else compressUF fuel (p.set n.toNat r) (p.getD n.toNat n) r

/-- findUF is `find` of the source: returns the class representative and
the path-compressed parent array. -/
def findUF (p : List NodeId) (n : NodeId) : NodeId × List NodeId :=
  let r := findRootUF (p.length + 1) p n
  (r, compressUF (p.length + 1) p n r)

/-- unionUF is `union` of the source. -/
def unionUF (parent child : NodeId) (p : List NodeId) : List NodeId :=
  let (a, p1) := findUF p parent
  let (b, p2) := findUF p1 child
  p2.set b.toNat a

/-- assocAppend models `m[c] = append(m[c], i)` on the Go result map of
`Components` (an association list keyed by representative). -/
def assocAppend (m : List (NodeId × List NodeId)) (c : NodeId) (i : NodeId) :
    List (NodeId × List NodeId) :=
  match m.find? (fun q => q.1 = c) with
  | some _ => m.map (fun q => if q.1 = c then (q.1, q.2 ++ [i]) else q)
  | none => m ++ [(c, [i])]

/-- Components returns the connected components inside the topology as
a map from representatives to their nodes. -/
def Topology.Components (t : Topology) : List (NodeId × List NodeId) :=
  let p0 : List NodeId := (List.range t.NumNodes).map (fun i => (i : Int))
  let edges : List (NodeId × NodeId) :=
    (t.Children.enum.map (fun q => q.2.map (fun c => ((q.1 : Int), c)))).flatten
  let p1 := edges.foldl (fun p e => unionUF e.1 e.2 p) p0
  ((List.range t.NumNodes).foldl
    (fun acc i =>
      let fc := findUF acc.2 (i : Int)
      (assocAppend acc.1 fc.1 (i : Int), fc.2))
    ([], p1)).1

/-- NumComponents is the `len` of the Go `Components` map. -/
def Topology.NumComponents (t : Topology) : Nat := t.Components.length

/-- Span is a half-open `[Left, Right)` input span of a node. -/
structure Span where
  Left : Int
  Right : Int
  deriving DecidableEq

/-- ParseTree is a tree topology with rich annotations of nodes stored
as slices addressed by NodeIds from the topology; absent annotations
are empty slices (`Map` is the optional label interner). -/
structure ParseTree where
  Topology : Topology
  Map : Option Bimap.Map := none
  Label : List String := []
  Id : List Int := []
  Span : List Span := []
  Head : List Int := []
  HeadLeaf : List NodeId := []
  deriving DecidableEq

/-- Parsing and io errors returned by the parser. -/
inductive PError where
  | eof
  | ParseError
  | NoCloseParen
  | NoOpenParen
  | NoCategory
  | NoWordOrOpenParen
  deriving DecidableEq

/-- Kind is the kind of token found by the parser. -/
inductive Kind where
  | kOpen
  | kClose
  | kWord
  deriving DecidableEq

/-- spaceByte tests the bytes skipped between tokens. -/
def spaceByte (c : Char) : Bool := c = ' ' || c = '\t' || c = '\n'

/-- wordByte tests the bytes that may continue a word token. -/
def wordByte (c : Char) : Bool := !(spaceByte c || c = '(' || c = ')')

/-- nextToken returns the next token, its kind and the remaining input;
`none` models the io.EOF error when no token starts.  A delimiter after
a word is unread (left in the remaining input), and end of input inside
a word is postponed, exactly as in the source. -/
def nextToken (input : List Char) : Option (String × Kind × List Char) :=
  match input.dropWhile spaceByte with
  | [] => none
  | c :: rest =>
    if c = '(' then some ("(", .kOpen, rest)
    else if c = ')' then some (")", .kClose, rest)
    else some (String.mk (c :: rest.takeWhile wordByte), .kWord, rest.dropWhile wordByte)

mutual

/-- parseNode parses `Node -> Label ( Label | Children )`, adding the
parsed node to the tree and returning its id and the remaining input.
Since tokenization is context-free, the one-token lookahead of the
source (`peekToken`) is modelled by running `nextToken` without
advancing the input. -/
def parseNode : Nat → ParseTree → List Char → Except PError (ParseTree × NodeId × List Char)
  | 0, _, _ => .error .ParseError
  | fuel + 1, tree, input =>
    match nextToken input with
    | none => .error .NoCategory
    | some (token, kind, rest) =>
      if kind ≠ .kWord then .error .NoCategory
      else
        let an := tree.Topology.AddNode
        let node := an.2
        let tree1 := { tree with Topology := an.1, Label := tree.Label ++ [token] }
        match nextToken rest with
        | none => .error .NoWordOrOpenParen
        | some (token2, kind2, rest2) =>
          if kind2 = .kClose then .error .NoWordOrOpenParen
          else if kind2 = .kWord then
            let an2 := tree1.Topology.AddNode
            let child := an2.2
            let tree2 := { tree1 with
              Topology := an2.1.AppendChild node child,
              Label := tree1.Label ++ [token2] }
            .ok (tree2, node, rest2)
          else
            match parseChildren fuel tree1 rest with
            | .error e => .error e
            | .ok (tree2, children, rest3) =>
              .ok ({ tree2 with Topology := tree2.Topology.setChildrenAt node children },
                node, rest3)
termination_by structural fuel _ _ => fuel

/-- parseChildren parses `Children -> '(' Node ')' ( eps | Children )`
and returns the list of children node ids. -/
def parseChildren : Nat → ParseTree → List Char → Except PError (ParseTree × List NodeId × List Char)
  | 0, _, _ => .error .ParseError
  | fuel + 1, tree, input =>
    match nextToken input with
    | none => .error .NoOpenParen
    | some (_, kind, rest) =>
      if kind ≠ .kOpen then .error .NoOpenParen
      else
        match parseNode fuel tree rest with
        | .error e => .error e
        | .ok (tree1, child, rest1) =>
          match nextToken rest1 with
          | none => .error .NoCloseParen
          | some (_, kind2, rest2) =>
            if kind2 ≠ .kClose then .error .NoCloseParen
            else parseMore fuel tree1 [child] rest2
termination_by structural fuel _ _ => fuel

/-- parseMore models the trailing loop of `parseChildren`: as long as
the peeked token is an open parenthesis, parse `'(' Node ')'` and
append the node to `children`; any peek failure ends the loop. -/
def parseMore : Nat → ParseTree → List NodeId → List Char →
    Except PError (ParseTree × List NodeId × List Char)
  | 0, _, _, _ => .error .ParseError
  | fuel + 1, tree, children, input =>
    match nextToken input with
    | none => .ok (tree, children, input)
    | some (_, kind, rest) =>
      if kind ≠ .kOpen then .ok (tree, children, input)
      else
        match parseNode fuel tree rest with
        | .error e => .error e
        | .ok (tree1, child, rest1) =>
          match nextToken rest1 with
          | none => .error .NoCloseParen
          | some (_, kind2, rest2) =>
            if kind2 ≠ .kClose then .error .NoCloseParen
            else parseMore fuel tree1 (children ++ [child]) rest2
termination_by structural fuel _ _ _ => fuel

end

/-- parseTree parses `Tree -> '(' ( ')' | Node ')' )`; the result id is
`NoNodeId` exactly for the empty inner tree. -/
def parseTree (fuel : Nat) (tree : ParseTree) (input : List Char) :
    Except PError (ParseTree × NodeId × List Char) :=
  match nextToken input with
  | none => .error .NoOpenParen
  | some (_, kind, rest) =>
    if kind ≠ .kOpen then .error .NoOpenParen
    else
      match nextToken rest with
      | some (_, .kClose, rest2) => .ok (tree, NoNodeId, rest2)
      | _ =>
        match parseNode fuel tree rest with
        | .error e => .error e
        | .ok (tree1, node, rest1) =>
          match nextToken rest1 with
          | none => .error .NoCloseParen
          | some (_, kind2, rest2) =>
            if kind2 ≠ .kClose then .error .NoCloseParen
            else .ok (tree1, node, rest2)

/-- parseS parses `S -> '(' Tree ')'` and sets the root when the inner
tree is not empty; an io error on the very first token is returned as
`eof`. -/
def parseS (fuel : Nat) (tree : ParseTree) (input : List Char) :
    Except PError (ParseTree × NodeId × List Char) :=
  match nextToken input with
  | none => .error .eof
  | some (_, kind, rest) =>
    if kind ≠ .kOpen then .error .NoOpenParen
    else
      match parseTree fuel tree rest with
      | .error e => .error e
      | .ok (tree1, root, rest1) =>
        match nextToken rest1 with
        | none => .error .NoCloseParen
        | some (_, kind2, rest2) =>
          if kind2 ≠ .kClose then .error .NoCloseParen
          else
            let tree2 := if root ≠ NoNodeId
              then { tree1 with Topology := tree1.Topology.SetRoot root } else tree1
            .ok (tree2, root, rest2)

/-- Next extracts the next parse tree from the input, returning the
tree and the remaining input.  The entry fuel is sufficient for every
input (each level of the recursion consumes at least one byte). -/
def Next (input : List Char) : Except PError (ParseTree × List Char) :=
  let tree : ParseTree := { Topology := NewEmptyTopology, Label := [] }
  match parseS (2 * input.length + 4) tree input with
  | .error e => .error e
  | .ok (tree1, _, rest) => .ok (tree1, rest)

mutual

/-- dfsString traverses a non-empty tree starting at node and renders
the standard Treebank format. -/
def dfsString (tree : ParseTree) : Nat → NodeId → String
  | 0, _ => ""
  | fuel + 1, node =>
    if tree.Topology.Leaf node then tree.Label.getD node.toNat ""
    else "(" ++ tree.Label.getD node.toNat ""
      ++ dfsStringChildren tree fuel (tree.Topology.ChildrenAt node) ++ ")"
termination_by structural fuel _ => fuel

/-- dfsStringChildren renders `' ' ++ child` for every child in order. -/
def dfsStringChildren (tree : ParseTree) : Nat → List NodeId → String
  | 0, _ => ""
  | fuel + 1, cs =>
    match cs with
    | [] => ""
    | c :: cs' => " " ++ dfsString tree fuel c ++ dfsStringChildren tree fuel cs'
termination_by structural fuel _ => fuel

end

mutual

/-- dfsFillSpan fills the span of `node` (and its subtree) starting at
position `left` and returns the updated spans and the right end. -/
def dfsFillSpan (t : Topology) : Nat → NodeId → Int → List Span → Option (List Span × Int)
  | 0, _, _, _ => none
  | fuel + 1, node, left, spans =>
    let spans1 := spans.set node.toNat { spans.getD node.toNat ⟨0, 0⟩ with Left := left }
    if t.Leaf node then
      some (spans1.set node.toNat { spans1.getD node.toNat ⟨0, 0⟩ with Right := left + 1 },
        left + 1)
    else
      match dfsFillSpanChildren t fuel (t.ChildrenAt node) left spans1 with
      | none => none
      | some (spans2, right) =>
        some (spans2.set node.toNat { spans2.getD node.toNat ⟨0, 0⟩ with Right := right },
          right)
termination_by structural fuel _ _ _ => fuel

/-- dfsFillSpanChildren folds `dfsFillSpan` over the children, threading
the running right end. -/
def dfsFillSpanChildren (t : Topology) : Nat → List NodeId → Int → List Span →
    Option (List Span × Int)
  | 0, _, _, _ => none
  | fuel + 1, cs, right, spans =>
    match cs with
    | [] => some (spans, right)
    | c :: cs' =>
      match dfsFillSpan t fuel c right spans with
      | none => none
      | some (spans', right') => dfsFillSpanChildren t fuel cs' right' spans'
termination_by structural fuel _ _ _ => fuel

end

/-- FillSpan fills the Span slice (of length `NumNodes`, reused if large
enough, zeroed otherwise) by a single DFS from the root. -/
def ParseTree.FillSpan (tree : ParseTree) : Option ParseTree :=
  let numNodes := tree.Topology.NumNodes
  let spans0 := if numNodes ≤ tree.Span.length then tree.Span.take numNodes
    else List.replicate numNodes (⟨0, 0⟩ : Treebank.Span)
  if tree.Topology.Root ≠ NoNodeId then
    match dfsFillSpan tree.Topology (2 * numNodes + 2) tree.Topology.Root 0 spans0 with
    | none => none
    | some (spans, _) => some { tree with Span := spans }
  else some { tree with Span := spans0 }

/-- stripLabelAnnotation truncates a label at its first '-' or '='. -/
def stripLabelAnnotation (label : String) : String :=
  String.mk (label.data.takeWhile (fun c => c ≠ '-' ∧ c ≠ '='))

/-- StripAnnotation strips rich treebank annotation: a leaf label only
when it starts with '*', an internal label unless it starts with '-'. -/
def ParseTree.StripAnnotation (tree : ParseTree) : ParseTree :=
  { tree with Label := tree.Label.enum.map (fun q =>
      let node : NodeId := (q.1 : Int)
      let label := q.2
      if tree.Topology.Leaf node then
        if 0 < label.length ∧ label.data.headD ' ' = '*' then stripLabelAnnotation label
        else label
      else
        if 0 < label.length ∧ label.data.headD ' ' ≠ '-' then stripLabelAnnotation label
        else label) }

/-- remapBy re-derives an optional annotation array after a topological
sort: entry `o` of the old array lands at position `oldToNew o` of a
fresh zeroed array of the new size. -/
def remapBy (oldToNew : List NodeId) (numNodes : Nat) (dflt : α) (old : List α) : List α :=
  oldToNew.enum.foldl
    (fun acc q => if q.2 = NoNodeId then acc else acc.set q.2.toNat (old.getD q.1 dflt))
    (List.replicate numNodes dflt)

/-- remapHeadLeaf re-derives the HeadLeaf array, additionally mapping
the stored node ids through `oldToNew`. -/
def remapHeadLeaf (oldToNew : List NodeId) (numNodes : Nat) (old : List NodeId) : List NodeId :=
  oldToNew.enum.foldl
    (fun acc q => if q.2 = NoNodeId then acc
      else acc.set q.2.toNat (oldToNew.getD (old.getD q.1 0).toNat NoNodeId))
    (List.replicate numNodes (0 : Int))

/-- Topsort of a ParseTree: topologically sorts the topology and
re-organizes every full-length optional array into the new order;
arrays not of full length are cleared. -/
def ParseTree.Topsort (tree : ParseTree) : Except String (List NodeId × ParseTree) :=
  let oldNumNodes := tree.Topology.NumNodes
  match tree.Topology.Topsort with
  | .error e => .error e
  | .ok (oldToNew, top') =>
    let numNodes := top'.NumNodes
    .ok (oldToNew, { tree with
      Topology := top',
      Label := if tree.Label.length = oldNumNodes
        then remapBy oldToNew numNodes "" tree.Label else [],
      Id := if tree.Id.length = oldNumNodes
        then remapBy oldToNew numNodes 0 tree.Id else [],
      Span := if tree.Span.length = oldNumNodes
        then remapBy oldToNew numNodes ⟨0, 0⟩ tree.Span else [],
      Head := if tree.Head.length = oldNumNodes
        then remapBy oldToNew numNodes 0 tree.Head else [],
      HeadLeaf := if tree.HeadLeaf.length = oldNumNodes
        then remapHeadLeaf oldToNew numNodes tree.HeadLeaf else [] })

/-- markInvisible models the bottom-up marking loop of `RemoveNone` for
node ids `i-1, i-2, ..., 0`: a node labelled exactly "-NONE-" is marked;
an internal node all of whose children are marked is marked and its
children are unmarked; any other internal node is unmarked. -/
def markInvisible (tree : ParseTree) : Nat → List Bool → List Bool
  | 0, inv => inv
  | i + 1, inv =>
    let node : NodeId := (i : Int)
    let label := tree.Label.getD i ""
    let cs := tree.Topology.ChildrenAt node
    let inv' :=
      if label = "-NONE-" then inv.set i true
      else if 0 < cs.length then
        if cs.all (fun c => inv.getD c.toNat false) then
          cs.foldl (fun a c => a.set c.toNat false) (inv.set i true)
        else inv.set i false
      else inv
    markInvisible tree i inv'

/-- RemoveNone removes -NONE- and its unary ancestors: sort, mark
bottom-up, disconnect the marked nodes, sort again. -/
def ParseTree.RemoveNone (tree : ParseTree) : Except String ParseTree :=
  match tree.Topsort with
  | .error e => .error e
  | .ok (_, tree1) =>
    let numNodes := tree1.Topology.NumNodes
    let invisible := markInvisible tree1 numNodes (List.replicate numNodes false)
    let tree2 := { tree1 with Topology := tree1.Topology.Disconnect invisible }
    match tree2.Topsort with
    | .error e => .error e
    | .ok (_, tree3) => .ok tree3

/-- RemapByLabel remaps Id by Label using the given interner (or the
stored one when `m` is `none`); `none` models the panics on a length
mismatch, a missing map, or an empty label.  The mutation of the shared
Go interner is modelled by returning the grown map in the `Map` field. -/
def ParseTree.RemapByLabel (tree : ParseTree) (m : Option Bimap.Map) : Option ParseTree :=
  if tree.Label.length ≠ tree.Topology.NumNodes then none
  else
    match (match m with | none => tree.Map | some mm => some mm) with
    | none => none
    | some mm =>
      match mm.AppendByString tree.Label [] with
      | none => none
      | some (m', ids) => some { tree with Map := some m', Id := ids }

/-- String writes out the tree in standard Treebank format (the
`RemapById` fallback for a missing Label array is not modelled; every
tree rendered by the theorems has a valid Label array). -/
def ParseTree.String (tree : ParseTree) : String :=
  if tree.Topology.Root = NoNodeId then "(())"
  else "(" ++ dfsString tree (2 * tree.Topology.NumNodes + 2) tree.Topology.Root ++ ")"

mutual

/-- subtreeNodes lists the nodes of the subtree under `n` in depth-first
order; the tree represented by a Topology is the subtree under its
root (empty when the root is NoNodeId). -/
def subtreeNodes (t : Topology) : Nat → NodeId → List NodeId
  | 0, _ => []
  | fuel + 1, n => n :: subtreeForest t fuel (t.ChildrenAt n)
termination_by structural fuel _ => fuel

/-- subtreeForest concatenates the subtrees of a list of nodes. -/
def subtreeForest (t : Topology) : Nat → List NodeId → List NodeId
  | 0, _ => []
  | fuel + 1, [] => []
  | fuel + 1, c :: cs => subtreeNodes t fuel c ++ subtreeForest t fuel cs
termination_by structural fuel _ => fuel

end

/-- idxI returns the index of the first occurrence of `x` in `l` (the
length of `l` when `x` is absent); it is the position a traversed node
receives from `buildOldToNew`. -/
def idxI : List NodeId → NodeId → Nat
  | [], _ => 0
  | y :: l, x => if y = x then 0 else idxI l x + 1

/-- childConcat concatenates the children lists of the nodes of `l` in
order — the multiset of edges going out of `l`. -/
def childConcat (t : Topology) (l : List NodeId) : List NodeId :=
  (l.map (fun o => t.ChildrenAt o)).flatten

/-- WFChildren states that every stored child id is a legal node id; the
Go code indexes slices with these ids and would panic otherwise. -/
def Topology.WFChildren (t : Topology) : Prop :=
  ∀ i : Nat, i < t.NumNodes → ∀ c ∈ t.Children.getD i [], 0 ≤ c ∧ c.toNat < t.NumNodes

/-- WFRoot states that the root is either unset or a legal node id. -/
def Topology.WFRoot (t : Topology) : Prop :=
  t.Root = NoNodeId ∨ (0 ≤ t.Root ∧ t.Root.toNat < t.NumNodes)

/-- rootOf is the union-find class representative of `n` in the parent
array `p` (the fuel used by `findUF` is always sufficient on the arrays
the invariants admit). -/
def rootOf (p : List NodeId) (n : NodeId) : NodeId := findRootUF (p.length + 1) p n

/-- WFuf is the invariant of the union-find parent arrays arising in
`Components`: entry `x` is a node id that is at most `x`. -/
def WFuf (k : Nat) (p : List NodeId) : Prop :=
  p.length = k ∧ ∀ x : Nat, x < k → 0 ≤ p.getD x 0 ∧ p.getD x 0 ≤ (x : Int)

end Treebank

namespace Treebank

/-- Node is the rose-tree view of one parsed constituent (the `Node`
type of the sibling snapshot src/treebank/tree.go); it is used to state
the correspondence between the parser, the renderer and the flat arrays
of a ParseTree. -/
inductive Node where
  | mk (label : String) (children : List Node)

/-- label of a Node. -/
def Node.label : Node → String
  | .mk l _ => l

/-- children of a Node. -/
def Node.children : Node → List Node
  | .mk _ cs => cs

mutual

/-- sizeN is the number of nodes of a rose tree. -/
def sizeN : Node → Nat
  | .mk _ cs => 1 + sizeF cs

/-- sizeF is the number of nodes of a forest. -/
def sizeF : List Node → Nat
  | [] => 0
  | c :: cs => sizeN c + sizeF cs

end

mutual

/-- flattenLabels lists the labels of a rose tree in depth-first
preorder — the order in which the parser appends them to `Label`. -/
def flattenLabels : Node → List String
  | .mk l cs => l :: flattenLabelsF cs

/-- flattenLabelsF is `flattenLabels` over a forest. -/
def flattenLabelsF : List Node → List String
  | [] => []
  | c :: cs => flattenLabels c ++ flattenLabelsF cs

end

/-- childIds lists the node ids of the roots of a forest laid out
consecutively from `base` in preorder. -/
def childIds : List Node → Int → List Int
  | [], _ => []
  | c :: cs, base => base :: childIds cs (base + (sizeN c : Int))

mutual

/-- flattenChildren lists the children arrays of a rose tree laid out
in preorder with this node at id `base`. -/
def flattenChildren : Node → Int → List (List Int)
  | .mk _ cs, base => childIds cs (base + 1) :: flattenChildrenF cs (base + 1)

/-- flattenChildrenF is `flattenChildren` over a forest starting at
id `base`. -/
def flattenChildrenF : List Node → Int → List (List Int)
  | [], _ => []
  | c :: cs, base => flattenChildren c base ++ flattenChildrenF cs (base + (sizeN c : Int))

end

/-- appendTree appends the preorder layout of a rose tree to a
ParseTree under construction — the net effect of a successful
`parseNode` call on the tree state. -/
def appendTree (tree : ParseTree) (r : Node) : ParseTree :=
  { tree with
    Topology := { tree.Topology with
      Children := tree.Topology.Children
        ++ flattenChildren r (tree.Topology.NumNodes : Int) },
    Label := tree.Label ++ flattenLabels r }

/-- appendForest folds `appendTree` over a forest — the net effect of a
successful `parseChildren` call on the tree state. -/
def appendForest (tree : ParseTree) (rs : List Node) : ParseTree :=
  rs.foldl appendTree tree

mutual

/-- renderNode renders a rose tree exactly as `dfsString` renders the
corresponding ParseTree region: a leaf is its label, an internal node
is `(label child ... child)`. -/
def renderNode : Node → String
  | .mk l [] => l
  | .mk l (c :: cs) => "(" ++ l ++ renderForest (c :: cs) ++ ")"

/-- renderForest renders `' ' ++ child` for every tree of a forest. -/
def renderForest : List Node → String
  | [] => ""
  | c :: cs => " " ++ renderNode c ++ renderForest cs

end

/-- innerRender is the rendering of an internal node without its
surrounding parentheses — the text consumed by one `parseNode` call. -/
def innerRender : Node → String
  | .mk l cs => l ++ renderForest cs

/-- validWord characterizes the tokens the tokenizer classifies as
words: non-empty and free of whitespace and parentheses. -/
def validWord (s : String) : Prop :=
  s.data ≠ [] ∧ ∀ c ∈ s.data, wordByte c = true

mutual

/-- validNode characterizes the rose trees a successful `parseNode`
can produce: a word label and either a single word leaf child (a
pre-terminal) or a non-empty list of valid internal children. -/
def validNode : Node → Prop
  | .mk l cs => validWord l ∧ validKids cs

/-- validKids characterizes the children list of a parsed node. -/
def validKids : List Node → Prop
  | [.mk w []] => validWord w
  | cs => cs ≠ [] ∧ validForest cs

/-- validForest asserts `validNode` for every tree of a forest. -/
def validForest : List Node → Prop
  | [] => True
  | c :: cs => validNode c ∧ validForest cs

end

/-- EmbeddedAt states that the arrays of `pt` from position `b` onwards
coincide with the preorder layout of the rose tree `r` based at `b`. -/
def EmbeddedAt (pt : ParseTree) (b : Nat) (r : Node) : Prop :=
  ∀ k, k < sizeN r →
    pt.Label.get? (b + k) = (flattenLabels r).get? k
    ∧ pt.Topology.Children.get? (b + k) = (flattenChildren r (b : Int)).get? k

/-- EmbeddedAtF is `EmbeddedAt` for a forest laid out from `b`. -/
def EmbeddedAtF (pt : ParseTree) (b : Nat) (rs : List Node) : Prop :=
  ∀ k, k < sizeF rs →
    pt.Label.get? (b + k) = (flattenLabelsF rs).get? k
    ∧ pt.Topology.Children.get? (b + k) = (flattenChildrenF rs (b : Int)).get? k

end Treebank


open Treebank

/-- C2: parsing the input "(())" with the parser's entry point returns,
with no error, a tree whose Topology root is NoNodeId and whose label
and annotation arrays are all empty (and no input remains). -/
theorem c2_no_parse_empty_tree :
    Next "(())".data =
      .ok (⟨⟨NoNodeId, []⟩, none, [], [], [], [], []⟩, []) := by
  rfl

/-- C4: constructing a 2-node Topology where node a's child is b and
b's child is a, with a as root, and calling Topsort fails with the
"cycle in Topology" panic (not by exhausting the traversal bound and
not by returning a truncated result). -/
theorem c4_cycle_topsort_panics :
    (let t0 := NewEmptyTopology
     let s1 := t0.AddNode
     let s2 := s1.1.AddNode
     let a := s1.2
     let b := s2.2
     (((s2.1.SetRoot a).AppendChild a b).AppendChild b a).Topsort)
      = .error "cycle in Topology" := by
  rfl

/-- C5 counterexample: appending the current root c = 0 (which has no
parent) as a child of p = 1 leaves the root at c, so the Topology
afterwards represents exactly the subtree under c — which differs from
the subtree under c's new ancestor p.  The claim's phrase "represents
exactly the subtree under c's new ancestor" is therefore false at this
input (the source comment says "the subtree under child"). -/
theorem c5_counterexample :
    (Topology.mk 0 [[], []]).Children.flatten = []
    ∧ ((Topology.mk 0 [[], []]).AppendChild 1 0).Root = 0
    ∧ subtreeNodes ((Topology.mk 0 [[], []]).AppendChild 1 0) 10
        ((Topology.mk 0 [[], []]).AppendChild 1 0).Root = [0]
    ∧ subtreeNodes ((Topology.mk 0 [[], []]).AppendChild 1 0) 10 1 = [1, 0]
    ∧ subtreeNodes ((Topology.mk 0 [[], []]).AppendChild 1 0) 10
        ((Topology.mk 0 [[], []]).AppendChild 1 0).Root
      ≠ subtreeNodes ((Topology.mk 0 [[], []]).AppendChild 1 0) 10 1 := by
  decide

/-- C5 (amended): for every Topology and every node c without a parent,
AppendChild p c is legal even when c equals the current root (the
part_000 AppendChild performs no check and cannot fail), c is appended
to p's children, and afterwards the Topology still represents exactly
the subtree under c itself (the root is unchanged), not under its new
ancestor. -/
theorem c5_append_child_may_be_root (t : Topology) (p c : NodeId)
    (hnoparent : c ∉ t.Children.flatten)
    (hroot : c = t.Root)
    (hp : 0 ≤ p) (hplt : p.toNat < t.NumNodes) :
    (t.AppendChild p c).Root = t.Root
    ∧ (t.AppendChild p c).ChildrenAt p = t.ChildrenAt p ++ [c]
    ∧ ∀ fuel, subtreeNodes (t.AppendChild p c) fuel ((t.AppendChild p c).Root)
        = subtreeNodes (t.AppendChild p c) fuel c := by
  refine ⟨rfl, ?_, ?_⟩
  · simp only [Topology.AppendChild, Topology.ChildrenAt]
    rw [List.getD_eq_getElem?_getD, List.getElem?_set_self]
    · simp [List.getD_eq_getElem?_getD]
    · exact hplt
  · intro fuel
    have : (t.AppendChild p c).Root = t.Root := rfl
    rw [this, ← hroot]

/-- C5 witness: the amended theorem applied to the 2-node topology of
the counterexample. -/
theorem c5_append_child_may_be_root_witness :
    0 ∉ (Topology.mk 0 [[], []]).Children.flatten
    ∧ ((Topology.mk 0 [[], []]).AppendChild 1 0).Root = (Topology.mk 0 [[], []]).Root
    ∧ ((Topology.mk 0 [[], []]).AppendChild 1 0).ChildrenAt 1
        = (Topology.mk 0 [[], []]).ChildrenAt 1 ++ [0]
    ∧ ∀ fuel, subtreeNodes ((Topology.mk 0 [[], []]).AppendChild 1 0) fuel
        ((Topology.mk 0 [[], []]).AppendChild 1 0).Root
      = subtreeNodes ((Topology.mk 0 [[], []]).AppendChild 1 0) fuel 0 := by
  refine ⟨by decide, ?_⟩
  exact c5_append_child_may_be_root (Topology.mk 0 [[], []]) 1 0
    (by decide) (by decide) (by decide) (by decide)

/-- scanUp returns the index of the leftmost child of minimal priority:
invariant-based characterization of the HEAD_INITIAL loop. -/
theorem scanUp_spec (rule : Heads.HeadRule) (children : List String) :
    ∀ (cs : List String) (j i p : Nat),
      cs = children.drop j →
      i < j → j ≤ children.length →
      p = rule.LabelPriority (children.getD i "") →
      (∀ k, k < j → p ≤ rule.LabelPriority (children.getD k "")) →
      (∀ k, k < i → p < rule.LabelPriority (children.getD k "")) →
      Heads.scanUp rule cs j i p < children.length ∧
      (∀ k, k < children.length →
        rule.LabelPriority (children.getD (Heads.scanUp rule cs j i p) "")
          ≤ rule.LabelPriority (children.getD k "")) ∧
      (∀ k, k < Heads.scanUp rule cs j i p →
        rule.LabelPriority (children.getD (Heads.scanUp rule cs j i p) "")
          < rule.LabelPriority (children.getD k "")) := by
  intro cs
  induction cs with
  | nil =>
    intro j i p hdrop hij hjle hp hmin hstrict
    have hlen : children.length ≤ j := by
      by_contra hlt
      push_neg at hlt
      have := List.drop_eq_nil_iff.mp hdrop.symm
      omega
    have hjlen : j = children.length := le_antisymm hjle hlen
    simp only [Heads.scanUp]
    refine ⟨by omega, ?_, ?_⟩
    · intro k hk
      rw [← hp]
      exact hmin k (by omega)
    · intro k hk
      rw [← hp]
      exact hstrict k hk
  | cons c cs' ih =>
    intro j i p hdrop hij hjle hp hmin hstrict
    have hjlt : j < children.length := by
      by_contra hge
      push_neg at hge
      rw [List.drop_eq_nil_of_le hge] at hdrop
      exact List.noConfusion hdrop
    have hc : c = children.getD j "" := by
      have h1 : children.getD j "" = (children.drop j).getD 0 "" := by
        simp [List.getD_eq_getElem?_getD, List.getElem?_drop]
      rw [h1, ← hdrop]
      rfl
    have hcs' : cs' = children.drop (j + 1) := by
      have : children.drop (j + 1) = (children.drop j).drop 1 := by
        rw [List.drop_drop]
      rw [this, ← hdrop]
      rfl
    simp only [Heads.scanUp]
    by_cases hlt : rule.LabelPriority c < p
    · rw [if_pos hlt]
      refine ih (j + 1) j (rule.LabelPriority c) hcs' (by omega) (by omega)
        (by rw [hc]) ?_ ?_
      · intro k hk
        rcases Nat.lt_succ_iff_lt_or_eq.mp hk with h | h
        · exact le_of_lt (lt_of_lt_of_le hlt (hmin k h))
        · subst h
          rw [hc]
      · intro k hk
        exact lt_of_lt_of_le hlt (hmin k hk)
    · rw [if_neg hlt]
      push_neg at hlt
      refine ih (j + 1) i p hcs' (by omega) (by omega) hp ?_ hstrict
      intro k hk
      rcases Nat.lt_succ_iff_lt_or_eq.mp hk with h | h
      · exact hmin k h
      · subst h
        rw [← hc]
        exact hlt

/-- scanDown returns the index of the rightmost child of minimal
priority: invariant-based characterization of the HEAD_FINAL loop. -/
theorem scanDown_spec (rule : Heads.HeadRule) (children : List String) :
    ∀ (k i p : Nat),
      k ≤ children.length →
      i < children.length →
      k ≤ i →
      p = rule.LabelPriority (children.getD i "") →
      (∀ m, k ≤ m → m < children.length → p ≤ rule.LabelPriority (children.getD m "")) →
      (∀ m, i < m → m < children.length → p < rule.LabelPriority (children.getD m "")) →
      Heads.scanDown rule children k i p < children.length ∧
      (∀ m, m < children.length →
        rule.LabelPriority (children.getD (Heads.scanDown rule children k i p) "")
          ≤ rule.LabelPriority (children.getD m "")) ∧
      (∀ m, Heads.scanDown rule children k i p < m → m < children.length →
        rule.LabelPriority (children.getD (Heads.scanDown rule children k i p) "")
          < rule.LabelPriority (children.getD m "")) := by
  intro k
  induction k with
  | zero =>
    intro i p hkle hilt hki hp hmin hstrict
    simp only [Heads.scanDown]
    refine ⟨hilt, ?_, ?_⟩
    · intro m hm
      rw [← hp]
      exact hmin m (Nat.zero_le m) hm
    · intro m him hm
      rw [← hp]
      exact hstrict m him hm
  | succ k ih =>
    intro i p hkle hilt hki hp hmin hstrict
    simp only [Heads.scanDown]
    by_cases hlt : rule.LabelPriority (children.getD k "") < p
    · rw [if_pos hlt]
      refine ih k (rule.LabelPriority (children.getD k "")) (by omega) (by omega)
        (le_refl k) rfl ?_ ?_
      · intro m hkm hm
        rcases Nat.eq_or_lt_of_le hkm with h | h
        · rw [h]
        · exact le_of_lt (lt_of_lt_of_le hlt (hmin m h hm))
      · intro m hkm hm
        exact lt_of_lt_of_le hlt (hmin m hkm hm)
    · rw [if_neg hlt]
      push_neg at hlt
      refine ih i p (by omega) hilt (by omega) hp ?_ hstrict
      intro m hkm hm
      rcases Nat.eq_or_lt_of_le hkm with h | h
      · exact h ▸ hlt
      · exact hmin m h hm

/-- C6: for a non-empty child list and a parent whose HeadRule is in the
table, FindHead succeeds and returns the index of a child of minimal
numeric priority rank, with ties broken toward the scan's starting end:
for an Initial rule no strictly-smaller-or-equal-ranked child occurs to
the left of the result, for a Final rule none to the right; moreover a
label absent from the rule's priority mapping ranks `len(priority)`. -/
theorem c6_find_head_scan (finder : Heads.TableHeadFinder) (parent : String)
    (children : List String) (rule : Heads.HeadRule)
    (hrule : finder.lookupRule parent = some rule)
    (hne : children ≠ []) :
    (rule.Direction = Heads.HEAD_INITIAL →
      ∃ i, finder.FindHead parent children = some i ∧ i < children.length ∧
        (∀ k, k < children.length →
          rule.LabelPriority (children.getD i "") ≤ rule.LabelPriority (children.getD k "")) ∧
        (∀ k, k < i →
          rule.LabelPriority (children.getD i "") < rule.LabelPriority (children.getD k "")))
    ∧ (rule.Direction = Heads.HEAD_FINAL →
      ∃ i, finder.FindHead parent children = some i ∧ i < children.length ∧
        (∀ k, k < children.length →
          rule.LabelPriority (children.getD i "") ≤ rule.LabelPriority (children.getD k "")) ∧
        (∀ k, i < k → k < children.length →
          rule.LabelPriority (children.getD i "") < rule.LabelPriority (children.getD k "")))
    ∧ (∀ lab, rule.lookupPriority lab = none →
        rule.LabelPriority lab = rule.Priority.length) := by
  have hlen : 0 < children.length := List.length_pos.mpr hne
  refine ⟨?_, ?_, ?_⟩
  · intro hdir
    have hfh : finder.FindHead parent children =
        some (Heads.scanUp rule children.tail 1 0
          (rule.LabelPriority (children.headD ""))) := by
      simp only [Heads.TableHeadFinder.FindHead, hrule]
      rw [if_neg (by omega), hdir, if_pos rfl]
    have hhead : children.headD "" = children.getD 0 "" := by
      cases children with
      | nil => rfl
      | cons a l => rfl
    have htail : children.tail = children.drop 1 := by
      cases children with
      | nil => rfl
      | cons a l => rfl
    have := scanUp_spec rule children children.tail 1 0
      (rule.LabelPriority (children.headD "")) htail (by omega) (by omega)
      (by rw [hhead]) ?_ ?_
    · exact ⟨_, hfh, this⟩
    · intro k hk
      have : k = 0 := by omega
      subst this
      rw [hhead]
    · intro k hk
      omega
  · intro hdir
    have hfh : finder.FindHead parent children =
        some (Heads.scanDown rule children (children.length - 1) (children.length - 1)
          (rule.LabelPriority (children.getD (children.length - 1) ""))) := by
      simp only [Heads.TableHeadFinder.FindHead, hrule]
      rw [if_neg (by omega), hdir, if_neg (by decide), if_pos rfl]
    have := scanDown_spec rule children (children.length - 1) (children.length - 1)
      (rule.LabelPriority (children.getD (children.length - 1) ""))
      (by omega) (by omega) (le_refl _) rfl ?_ ?_
    · exact ⟨_, hfh, this⟩
    · intro m h1 h2
      have : m = children.length - 1 := by omega
      subst this
      exact le_refl _
    · intro m h1 h2
      omega
  · intro lab hnone
    simp [Heads.HeadRule.LabelPriority, hnone]

/-- C6 witness: FindHead on a concrete Final-direction rule, checked
against the scan characterization. -/
theorem c6_find_head_scan_witness :
    (Heads.TableHeadFinder.lookupRule
        ⟨[("X", ⟨Heads.HEAD_FINAL, [("B", 0), ("C", 1)]⟩)], Heads.UNKNOWN⟩ "X"
      = some ⟨Heads.HEAD_FINAL, [("B", 0), ("C", 1)]⟩)
    ∧ (["C", "B", "D", "B"] ≠ ([] : List String))
    ∧ ((⟨Heads.HEAD_FINAL, [("B", 0), ("C", 1)]⟩ : Heads.HeadRule).Direction
        = Heads.HEAD_FINAL →
      ∃ i, Heads.TableHeadFinder.FindHead
            ⟨[("X", ⟨Heads.HEAD_FINAL, [("B", 0), ("C", 1)]⟩)], Heads.UNKNOWN⟩
            "X" ["C", "B", "D", "B"] = some i
        ∧ i < (["C", "B", "D", "B"] : List String).length
        ∧ (∀ k, k < (["C", "B", "D", "B"] : List String).length →
            (⟨Heads.HEAD_FINAL, [("B", 0), ("C", 1)]⟩ : Heads.HeadRule).LabelPriority
              ((["C", "B", "D", "B"] : List String).getD i "")
              ≤ (⟨Heads.HEAD_FINAL, [("B", 0), ("C", 1)]⟩ : Heads.HeadRule).LabelPriority
                  ((["C", "B", "D", "B"] : List String).getD k ""))
        ∧ (∀ k, i < k → k < (["C", "B", "D", "B"] : List String).length →
            (⟨Heads.HEAD_FINAL, [("B", 0), ("C", 1)]⟩ : Heads.HeadRule).LabelPriority
              ((["C", "B", "D", "B"] : List String).getD i "")
              < (⟨Heads.HEAD_FINAL, [("B", 0), ("C", 1)]⟩ : Heads.HeadRule).LabelPriority
                  ((["C", "B", "D", "B"] : List String).getD k ""))) := by
  refine ⟨by decide, by decide, ?_⟩
  exact (c6_find_head_scan
    ⟨[("X", ⟨Heads.HEAD_FINAL, [("B", 0), ("C", 1)]⟩)], Heads.UNKNOWN⟩
    "X" ["C", "B", "D", "B"] ⟨Heads.HEAD_FINAL, [("B", 0), ("C", 1)]⟩
    (by decide) (by decide)).2.1

/-- C8: StripAnnotation strips trailing -N, =N, -TAG suffixes from labels
(the stripped label is the prefix of the original before its first '-'
or '=', and anything dropped starts with '-' or '='), with two
exceptions: a leaf's label is changed only if it begins with '*', and
an internal node's label is preserved verbatim when it begins with '-'.
In particular "((NP-1 this-this))" becomes internal label NP with leaf
label this-this unchanged, and "((-NONE- (NP-1 *PRO*-2)))" keeps the
outer -NONE- verbatim while the inner leaf is stripped to *PRO*. -/
theorem c8_strip_annotation :
    (∀ label : String,
      label.data = ( stripLabelAnnotation label).data
          ++ label.data.dropWhile (fun c => decide (c ≠ '-' ∧ c ≠ '='))
      ∧ (∀ c ∈ ( stripLabelAnnotation label).data, c ≠ '-' ∧ c ≠ '=')
      ∧ (∀ c, (label.data.dropWhile (fun c => decide (c ≠ '-' ∧ c ≠ '='))).head? = some c →
          c = '-' ∨ c = '='))
    ∧ (∀ (tree : ParseTree) (i : Nat) (label : String),
        tree.Label.get? i = some label →
        ((tree.Topology.Leaf (i : Int) = true → label.data.headD ' ' ≠ '*' →
            ( ParseTree.StripAnnotation tree).Label.get? i = some label)
        ∧ (tree.Topology.Leaf (i : Int) = true → label.data.headD ' ' = '*' →
            ( ParseTree.StripAnnotation tree).Label.get? i = some ( stripLabelAnnotation label))
        ∧ (tree.Topology.Leaf (i : Int) = false → label.data.headD ' ' = '-' →
            ( ParseTree.StripAnnotation tree).Label.get? i = some label)
        ∧ (tree.Topology.Leaf (i : Int) = false → label.data.headD ' ' ≠ '-' →
            0 < label.length →
            ( ParseTree.StripAnnotation tree).Label.get? i = some ( stripLabelAnnotation label))))
    ∧ (Next "((NP-1 this-this))".data).map (fun p => ( ParseTree.StripAnnotation p.1).Label)
        = .ok ["NP", "this-this"]
    ∧ (Next "((-NONE- (NP-1 *PRO*-2)))".data).map (fun p => ( ParseTree.StripAnnotation p.1).Label)
        = .ok ["-NONE-", "NP", "*PRO*"] := by
  refine ⟨?_, ?_, by rfl, by rfl⟩
  · intro label
    refine ⟨?_, ?_, ?_⟩
    · conv_lhs => rw [← List.takeWhile_append_dropWhile
        (p := fun c => decide (c ≠ '-' ∧ c ≠ '=')) (l := label.data)]
      rfl
    · intro c hc
      have := List.mem_takeWhile_imp hc
      simpa using this
    · intro c hc
      have h := List.head?_dropWhile_not (fun c => decide (c ≠ '-' ∧ c ≠ '=')) label.data
      rw [hc] at h
      simp only [decide_not] at h
      by_contra hcon
      push_neg at hcon
      simp [hcon.1, hcon.2] at h
  · intro tree i label hget
    have hmap : ( ParseTree.StripAnnotation tree).Label.get? i
        = (tree.Label.enum.get? i).map (fun q =>
            let node : NodeId := (q.1 : Int)
            let lab := q.2
            if tree.Topology.Leaf node then
              if 0 < lab.length ∧ lab.data.headD ' ' = '*' then stripLabelAnnotation lab
              else lab
            else
              if 0 < lab.length ∧ lab.data.headD ' ' ≠ '-' then stripLabelAnnotation lab
              else lab) := by
      simp [ ParseTree.StripAnnotation, List.get?_eq_getElem?]
    have henum : tree.Label.enum.get? i = some (i, label) := by
      simp only [List.get?_eq_getElem?] at hget ⊢
      rw [List.getElem?_enum, hget]
      rfl
    rw [henum] at hmap
    have hmap2 : ( ParseTree.StripAnnotation tree).Label.get? i
        = some (if tree.Topology.Leaf (i : Int) = true then
            (if 0 < label.length ∧ label.data.headD ' ' = '*' then stripLabelAnnotation label
             else label)
          else
            (if 0 < label.length ∧ label.data.headD ' ' ≠ '-' then stripLabelAnnotation label
             else label)) := by
      rw [hmap]
      rfl
    refine ⟨?_, ?_, ?_, ?_⟩
    · intro hleaf hstar
      rw [hmap2, if_pos hleaf, if_neg]
      intro hcon
      exact hstar hcon.2
    · intro hleaf hstar
      have hpos : 0 < label.length := by
        cases hdata : label.data with
        | nil => rw [hdata] at hstar; simp at hstar
        | cons a l =>
          have : label.length = label.data.length := rfl
          rw [this, hdata]
          simp
      rw [hmap2, if_pos hleaf, if_pos ⟨hpos, hstar⟩]
    · intro hleaf hdash
      rw [hmap2, if_neg (by rw [hleaf]; exact Bool.false_ne_true), if_neg]
      intro hcon
      exact hcon.2 hdash
    · intro hleaf hdash hpos
      rw [hmap2, if_neg (by rw [hleaf]; exact Bool.false_ne_true), if_pos ⟨hpos, hdash⟩]

/-- C8 witness: the per-node characterization applied to the parse of
"((-NONE- (NP-1 *PRO*-2)))" at the internal node 0 (label "-NONE-",
preserved) and at the leaf node 2 (label "*PRO*-2", stripped). -/
theorem c8_strip_annotation_witness :
    (ParseTree.mk ⟨0, [[1], [2], []]⟩ none ["-NONE-", "NP-1", "*PRO*-2"] [] [] [] []).Label.get? 0
        = some "-NONE-"
    ∧ ( ParseTree.StripAnnotation (ParseTree.mk ⟨0, [[1], [2], []]⟩ none ["-NONE-", "NP-1", "*PRO*-2"] [] [] [] [])).Label.get? 0
        = some "-NONE-"
    ∧ ( ParseTree.StripAnnotation (ParseTree.mk ⟨0, [[1], [2], []]⟩ none ["-NONE-", "NP-1", "*PRO*-2"] [] [] [] [])).Label.get? 2
        = some ( stripLabelAnnotation "*PRO*-2") := by
  refine ⟨by rfl, ?_, ?_⟩
  · exact (( c8_strip_annotation.2.1
      (ParseTree.mk ⟨0, [[1], [2], []]⟩ none ["-NONE-", "NP-1", "*PRO*-2"] [] [] [] [])
      0 "-NONE-" (by rfl)).2.2.1 (by rfl) (by rfl))
  · exact (( c8_strip_annotation.2.1
      (ParseTree.mk ⟨0, [[1], [2], []]⟩ none ["-NONE-", "NP-1", "*PRO*-2"] [] [] [] [])
      2 "*PRO*-2" (by rfl)).2.1 (by rfl) (by rfl))

/-- Add preserves the Map invariant, returns a valid dense id, can only
grow the map, and makes the added string present. -/
theorem add_spec (m : Bimap.Map) (s : String) (m' : Bimap.Map) (i : Int)
    (hwf : Bimap.MapWF m) (h : m.Add s = some (m', i)) :
    Bimap.MapWF m' ∧ 0 ≤ i ∧ i < (m'.Size : Int) ∧ m.Size ≤ m'.Size
    ∧ m'.lookupStr s ≠ none
    ∧ (∀ x, m.lookupStr x ≠ none → m'.lookupStr x ≠ none) := by
  simp only [Bimap.Map.Add] at h
  by_cases hs : s.length = 0
  · rw [if_pos hs] at h
    exact absurd h (by simp)
  · rw [if_neg hs] at h
    cases hfind : m.lookupStr s with
    | some j =>
      rw [hfind] at h
      injection h with h1
      injection h1 with hm hi
      subst hm
      subst hi
      obtain ⟨a, ha, hsnd⟩ := Option.map_eq_some'.mp hfind
      have hmem := List.mem_of_find?_eq_some ha
      have hrange := hwf a hmem
      refine ⟨hwf, ?_, ?_, le_refl _, ?_, fun x hx => hx⟩
      · rw [← hsnd]
        exact hrange.1
      · rw [← hsnd]
        exact hrange.2
      · rw [hfind]
        simp
    | none =>
      rw [hfind] at h
      injection h with h1
      injection h1 with hm hi
      subst hm
      subst hi
      have hfindnone : m.strToInt.find? (fun p => p.1 = s) = none := by
        simp only [Bimap.Map.lookupStr, Option.map_eq_none'] at hfind
        exact hfind
      refine ⟨?_, Int.natCast_nonneg _, ?_, ?_, ?_, ?_⟩
      · intro p hp
        simp only [List.mem_append, List.mem_singleton] at hp
        simp only [List.length_append, List.length_singleton]
        rcases hp with hp | hp
        · have := hwf p hp
          constructor
          · exact this.1
          · push_cast
            omega
        · subst hp
          constructor
          · exact Int.natCast_nonneg _
          · push_cast
            omega
      · simp only [Bimap.Map.Size, List.length_append, List.length_singleton]
        push_cast
        omega
      · simp only [Bimap.Map.Size, List.length_append, List.length_singleton]
        omega
      · simp only [Bimap.Map.lookupStr, List.find?_append, hfindnone, Option.none_or]
        simp
      · intro x hx
        simp only [Bimap.Map.lookupStr, ne_eq, Option.map_eq_none'] at hx ⊢
        simp only [List.find?_append]
        cases hfx : m.strToInt.find? (fun p => p.1 = x) with
        | none => exact absurd hfx hx
        | some a => simp

/-- AppendByString interns every label (growing the map), preserves the
invariant and appends only valid dense ids. -/
theorem appendByString_spec (labels : List String) :
    ∀ (m : Bimap.Map) (ints : List Int) (m' : Bimap.Map) (ints' : List Int),
      Bimap.MapWF m →
      m.AppendByString labels ints = some (m', ints') →
      Bimap.MapWF m' ∧ m.Size ≤ m'.Size
      ∧ ints'.length = ints.length + labels.length
      ∧ (∀ x ∈ ints', x ∈ ints ∨ (0 ≤ x ∧ x < (m'.Size : Int)))
      ∧ (∀ l ∈ labels, m'.lookupStr l ≠ none)
      ∧ (∀ x, m.lookupStr x ≠ none → m'.lookupStr x ≠ none) := by
  induction labels with
  | nil =>
    intro m ints m' ints' hwf h
    simp only [Bimap.Map.AppendByString] at h
    injection h with h1
    injection h1 with hm hi
    subst hm
    subst hi
    exact ⟨hwf, le_refl _, by simp, fun x hx => Or.inl hx, by simp, fun x hx => hx⟩
  | cons lab rest ih =>
    intro m ints m' ints' hwf h
    simp only [Bimap.Map.AppendByString] at h
    cases hadd : m.Add lab with
    | none =>
      rw [hadd] at h
      exact absurd h (by simp)
    | some p =>
      rw [hadd] at h
      obtain ⟨hwf1, hpos, hlt, hsize1, hpres1, hmono1⟩ := add_spec m lab p.1 p.2 hwf hadd
      obtain ⟨hwf2, hsize2, hlen2, hmem2, hlab2, hmono2⟩ :=
        ih p.1 (ints ++ [p.2]) m' ints' hwf1 h
      refine ⟨hwf2, le_trans hsize1 hsize2, ?_, ?_, ?_, ?_⟩
      · rw [hlen2]
        simp only [List.length_append, List.length_cons, List.length_nil]
        omega
      · intro x hx
        rcases hmem2 x hx with hx1 | hx1
        · simp only [List.mem_append, List.mem_singleton] at hx1
          rcases hx1 with hx1 | hx1
          · exact Or.inl hx1
          · subst hx1
            refine Or.inr ⟨hpos, lt_of_lt_of_le hlt ?_⟩
            exact_mod_cast hsize2
        · exact Or.inr hx1
      · intro l hl
        simp only [List.mem_cons] at hl
        rcases hl with hl | hl
        · subst hl
          exact hmono2 l hpres1
        · exact hlab2 l hl
      · intro x hx
        exact hmono2 x (hmono1 x hx)

/-- C10: for every ParseTree whose Label array matches the node count
and every well-formed interner, a successful RemapByLabel grows the
shared interner with every label not already present (each label of the
tree can be looked up in the resulting map) and fills Id with one valid
dense id of the interner per node — in particular no entry is the NoInt
(-1) sentinel. -/
theorem c10_remap_by_label (tree : ParseTree) (m : Bimap.Map) (tree' : ParseTree)
    (hlen : tree.Label.length = tree.Topology.NumNodes)
    (hwf : Bimap.MapWF m)
    (h : tree.RemapByLabel (some m) = some tree') :
    ∃ m', tree'.Map = some m'
      ∧ m.Size ≤ m'.Size
      ∧ (∀ l ∈ tree.Label, m'.lookupStr l ≠ none)
      ∧ tree'.Id.length = tree.Topology.NumNodes
      ∧ (∀ x ∈ tree'.Id, 0 ≤ x ∧ x < (m'.Size : Int))
      ∧ (∀ x ∈ tree'.Id, x ≠ Bimap.NoInt) := by
  simp only [ParseTree.RemapByLabel] at h
  rw [if_neg (by rw [hlen]; exact fun hc => hc rfl)] at h
  cases hab : m.AppendByString tree.Label [] with
  | none =>
    rw [hab] at h
    exact absurd h (by simp)
  | some q =>
    rw [hab] at h
    injection h with h1
    obtain ⟨hwf2, hsize, hlenq, hmem, hlab, _⟩ :=
      appendByString_spec tree.Label m [] q.1 q.2 hwf hab
    refine ⟨q.1, ?_, hsize, hlab, ?_, ?_, ?_⟩
    · rw [← h1]
    · rw [← h1]
      simpa [hlen] using hlenq
    · intro x hx
      rw [← h1] at hx
      rcases hmem x hx with hc | hc
      · exact absurd hc (List.not_mem_nil x)
      · exact hc
    · intro x hx
      rw [← h1] at hx
      rcases hmem x hx with hc | hc
      · exact absurd hc (List.not_mem_nil x)
      · intro hcon
        rw [hcon] at hc
        simp [Bimap.NoInt] at hc

/-- C10 witness: RemapByLabel on the parse of "((A B))" with a fresh
interner. -/
theorem c10_remap_by_label_witness :
    (ParseTree.mk ⟨0, [[1], []]⟩ none ["A", "B"] [] [] [] []).Label.length
        = (ParseTree.mk ⟨0, [[1], []]⟩ none ["A", "B"] [] [] [] []).Topology.NumNodes
    ∧ Bimap.MapWF Bimap.New
    ∧ (∃ m', (ParseTree.mk ⟨0, [[1], []]⟩ (some ⟨[("A", 0), ("B", 1)], ["A", "B"]⟩)
          ["A", "B"] [0, 1] [] [] []).Map = some m'
        ∧ Bimap.New.Size ≤ m'.Size
        ∧ (∀ l ∈ (ParseTree.mk ⟨0, [[1], []]⟩ none ["A", "B"] [] [] [] []).Label,
            m'.lookupStr l ≠ none)
        ∧ (ParseTree.mk ⟨0, [[1], []]⟩ (some ⟨[("A", 0), ("B", 1)], ["A", "B"]⟩)
            ["A", "B"] [0, 1] [] [] []).Id.length
          = (ParseTree.mk ⟨0, [[1], []]⟩ none ["A", "B"] [] [] [] []).Topology.NumNodes
        ∧ (∀ x ∈ (ParseTree.mk ⟨0, [[1], []]⟩ (some ⟨[("A", 0), ("B", 1)], ["A", "B"]⟩)
            ["A", "B"] [0, 1] [] [] []).Id, 0 ≤ x ∧ x < (m'.Size : Int))
        ∧ (∀ x ∈ (ParseTree.mk ⟨0, [[1], []]⟩ (some ⟨[("A", 0), ("B", 1)], ["A", "B"]⟩)
            ["A", "B"] [0, 1] [] [] []).Id, x ≠ Bimap.NoInt)) := by
  refine ⟨by rfl, by intro p hp; simp [Bimap.New] at hp, ?_⟩
  exact c10_remap_by_label (ParseTree.mk ⟨0, [[1], []]⟩ none ["A", "B"] [] [] [] [])
    Bimap.New
    (ParseTree.mk ⟨0, [[1], []]⟩ (some ⟨[("A", 0), ("B", 1)], ["A", "B"]⟩)
      ["A", "B"] [0, 1] [] [] [])
    (by rfl) (by intro p hp; simp [Bimap.New] at hp) (by rfl)

theorem sizeN_pos (r : Node) : 1 ≤ sizeN r := by
  cases r with
  | mk l cs => rw [sizeN]; omega

mutual

theorem flattenLabels_length : ∀ r : Node, (flattenLabels r).length = sizeN r
  | .mk l cs => by
    rw [flattenLabels, sizeN, List.length_cons, flattenLabelsF_length cs]
    omega

theorem flattenLabelsF_length : ∀ rs : List Node, (flattenLabelsF rs).length = sizeF rs
  | [] => rfl
  | c :: cs => by
    rw [flattenLabelsF, sizeF, List.length_append, flattenLabels_length c,
      flattenLabelsF_length cs]

end

mutual

theorem flattenChildren_length : ∀ (r : Node) (b : Int),
    (flattenChildren r b).length = sizeN r
  | .mk l cs, b => by
    rw [flattenChildren, sizeN, List.length_cons, flattenChildrenF_length cs]
    omega

theorem flattenChildrenF_length : ∀ (rs : List Node) (b : Int),
    (flattenChildrenF rs b).length = sizeF rs
  | [], _ => rfl
  | c :: cs, b => by
    rw [flattenChildrenF, sizeF, List.length_append, flattenChildren_length c,
      flattenChildrenF_length cs]

end

theorem numNodes_appendTree (tree : ParseTree) (r : Node) :
    (appendTree tree r).Topology.NumNodes = tree.Topology.NumNodes + sizeN r := by
  simp [appendTree, Topology.NumNodes, flattenChildren_length]

theorem label_length_appendTree (tree : ParseTree) (r : Node) :
    (appendTree tree r).Label.length = tree.Label.length + sizeN r := by
  simp [appendTree, flattenLabels_length]

theorem appendForest_cons (tree : ParseTree) (c : Node) (cs : List Node) :
    appendForest tree (c :: cs) = appendForest (appendTree tree c) cs := rfl

theorem appendForest_eq (rs : List Node) : ∀ tree : ParseTree,
    appendForest tree rs = { tree with
      Topology := { tree.Topology with
        Children := tree.Topology.Children
          ++ flattenChildrenF rs (tree.Topology.NumNodes : Int) },
      Label := tree.Label ++ flattenLabelsF rs } := by
  induction rs with
  | nil =>
    intro tree
    simp [appendForest, flattenChildrenF, flattenLabelsF]
  | cons c cs ih =>
    intro tree
    rw [appendForest_cons, ih]
    simp only [appendTree, flattenChildrenF, flattenLabelsF, List.append_assoc,
      Topology.NumNodes, List.length_append, flattenChildren_length]
    push_cast
    rfl

theorem numNodes_appendForest (rs : List Node) (tree : ParseTree) :
    (appendForest tree rs).Topology.NumNodes
      = tree.Topology.NumNodes + sizeF rs := by
  rw [appendForest_eq]
  simp [Topology.NumNodes, flattenChildrenF_length]

theorem nextToken_space (l : List Char) : nextToken (' ' :: l) = nextToken l := rfl

theorem nextToken_open (l : List Char) : nextToken ('(' :: l) = some ("(", .kOpen, l) := rfl

theorem nextToken_close (l : List Char) : nextToken (')' :: l) = some (")", .kClose, l) := rfl

theorem nextToken_word (w : String) (d : Char) (l : List Char)
    (hw : validWord w) (hd : wordByte d = false) :
    nextToken (w.data ++ d :: l) = some (w, .kWord, d :: l) := by
  obtain ⟨hne, hmem⟩ := hw
  cases hdata : w.data with
  | nil => exact absurd hdata hne
  | cons c cs =>
    have hcw : wordByte c = true := hmem c (by rw [hdata]; exact List.mem_cons_self c cs)
    have hcs : ∀ x ∈ cs, wordByte x = true := fun x hx =>
      hmem x (by rw [hdata]; exact List.mem_cons_of_mem c hx)
    have hcspace : spaceByte c = false := by
      simp only [wordByte, Bool.not_eq_true', Bool.or_eq_false_iff] at hcw
      exact hcw.1.1
    have hcopen : c ≠ '(' := by
      simp only [wordByte, Bool.not_eq_true', Bool.or_eq_false_iff] at hcw
      simpa using hcw.1.2
    have hcclose : c ≠ ')' := by
      simp only [wordByte, Bool.not_eq_true', Bool.or_eq_false_iff] at hcw
      simpa using hcw.2
    have h1 : (c :: (cs ++ d :: l)).dropWhile spaceByte = c :: (cs ++ d :: l) := by
      rw [List.dropWhile_cons_of_neg]
      simp [hcspace]
    simp only [List.cons_append, nextToken, h1]
    rw [if_neg hcopen, if_neg hcclose]
    have htake : (cs ++ d :: l).takeWhile wordByte = cs := by
      rw [List.takeWhile_append_of_pos hcs]
      simp [List.takeWhile_cons, hd]
    have hdrop : (cs ++ d :: l).dropWhile wordByte = d :: l := by
      rw [List.dropWhile_append_of_pos hcs]
      simp [List.dropWhile_cons, hd]
    rw [htake, hdrop]
    have hmk : String.mk (c :: cs) = w := congrArg String.mk hdata.symm
    rw [hmk]

theorem nextToken_word_valid (input : List Char) (tok : String) (rest : List Char)
    (h : nextToken input = some (tok, .kWord, rest)) : validWord tok := by
  simp only [nextToken] at h
  cases hdrop : input.dropWhile spaceByte with
  | nil =>
    rw [hdrop] at h
    exact absurd h (by simp)
  | cons c cs =>
    rw [hdrop] at h
    have h2 : (if c = '(' then some ("(", Kind.kOpen, cs)
        else if c = ')' then some (")", Kind.kClose, cs)
        else some (String.mk (c :: cs.takeWhile wordByte), Kind.kWord,
          cs.dropWhile wordByte)) = some (tok, Kind.kWord, rest) := h
    by_cases hco : c = '('
    · rw [if_pos hco] at h2
      simp only [Option.some.injEq, Prod.mk.injEq] at h2
      exact absurd h2.2.1.symm (by simp)
    · rw [if_neg hco] at h2
      by_cases hcc : c = ')'
      · rw [if_pos hcc] at h2
        simp only [Option.some.injEq, Prod.mk.injEq] at h2
        exact absurd h2.2.1.symm (by simp)
      · rw [if_neg hcc] at h2
        simp only [Option.some.injEq, Prod.mk.injEq] at h2
        obtain ⟨htok, _, _⟩ := h2
        have hcspace : spaceByte c = false := by
          have := List.head?_dropWhile_not spaceByte input
          rw [hdrop] at this
          simpa using this
        have hcw : wordByte c = true := by
          simp [wordByte, hcspace, hco, hcc]
        constructor
        · rw [← htok]
          simp
        · intro x hx
          rw [← htok] at hx
          simp only [String.data] at hx
          rcases List.mem_cons.mp hx with hx | hx
          · rw [hx]; exact hcw
          · exact List.mem_takeWhile_imp hx

theorem set_mid (l1 : List α) (x : α) (l2 : List α) (v : α) :
    (l1 ++ x :: l2).set l1.length v = l1 ++ v :: l2 := by
  rw [List.set_append_right _ _ (le_refl _)]
  simp

theorem getD_mid (l1 : List α) (x : α) (l2 : List α) (d : α) :
    (l1 ++ x :: l2).getD l1.length d = x := by
  rw [List.getD_eq_getElem?_getD, List.getElem?_append_right (le_refl _)]
  simp

theorem addNode_label_eq (tree : ParseTree) (tok : String) :
    ({ tree with
        Topology := tree.Topology.AddNode.1,
        Label := tree.Label ++ [tok] } : ParseTree)
      = appendTree tree (.mk tok []) := rfl

theorem preterminal_eq (tree : ParseTree) (tok tok2 : String) :
    ({ appendTree tree (.mk tok []) with
        Topology := ((appendTree tree (.mk tok [])).Topology.AddNode.1.AppendChild
          (tree.Topology.NumNodes : Int) (appendTree tree (.mk tok [])).Topology.AddNode.2),
        Label := (appendTree tree (.mk tok [])).Label ++ [tok2] } : ParseTree)
      = appendTree tree (.mk tok [.mk tok2 []]) := by
  have hflat : ∀ b : Int, flattenChildren (Node.mk tok []) b = [[]] := fun b => rfl
  have hflat2 : ∀ b : Int,
      flattenChildren (Node.mk tok [Node.mk tok2 []]) b = [[b + 1], []] := fun b => rfl
  simp only [appendTree, Topology.AddNode, Topology.AppendChild, Topology.ChildrenAt,
    Topology.NumNodes, hflat, hflat2, flattenLabels, flattenLabelsF,
    ParseTree.mk.injEq, Topology.mk.injEq]
  refine ⟨⟨trivial, ?_⟩, trivial, by simp, trivial, trivial, trivial, trivial⟩
  rw [Int.toNat_natCast]
  rw [show tree.Topology.Children ++ [([] : List NodeId)] ++ [([] : List NodeId)]
      = tree.Topology.Children ++ ([] : List NodeId) :: [([] : List NodeId)] by simp]
  rw [getD_mid, set_mid]
  simp only [List.length_append, List.length_cons, List.length_nil, List.nil_append]
  push_cast
  rfl

theorem setchildren_eq (tree : ParseTree) (tok : String) (rs : List Node) :
    ({ appendForest (appendTree tree (.mk tok [])) rs with
        Topology := ((appendForest (appendTree tree (.mk tok [])) rs).Topology.setChildrenAt
          (tree.Topology.NumNodes : Int)
          (childIds rs ((appendTree tree (.mk tok [])).Topology.NumNodes : Int))) } : ParseTree)
      = appendTree tree (.mk tok rs) := by
  have hflat : ∀ b : Int, flattenChildren (Node.mk tok []) b = [[]] := fun b => rfl
  rw [appendForest_eq]
  simp only [appendTree, Topology.setChildrenAt, Topology.ChildrenAt, Topology.NumNodes,
    hflat, flattenChildren, flattenLabels, flattenLabelsF,
    ParseTree.mk.injEq, Topology.mk.injEq, List.length_append, List.length_cons,
    List.length_nil, List.length_singleton]
  refine ⟨⟨trivial, ?_⟩, trivial, by simp, trivial, trivial, trivial, trivial⟩
  rw [Int.toNat_natCast]
  simp only [childIds, flattenChildrenF, List.length_nil, Nat.zero_add]
  push_cast
  rw [show tree.Topology.Children ++ [([] : List NodeId)]
        ++ flattenChildrenF rs ((tree.Topology.Children.length : Int) + 1)
      = tree.Topology.Children ++ ([] : List NodeId)
        :: flattenChildrenF rs ((tree.Topology.Children.length : Int) + 1) by simp]
  rw [set_mid]

theorem validKids_of_forest (rs : List Node) (hne : rs ≠ []) (hvf : validForest rs) :
    validKids rs := by
  match rs with
  | [] => exact absurd rfl hne
  | [Node.mk w []] =>
    rw [validForest] at hvf
    rw [validNode] at hvf
    have h0 : validKids ([] : List Node) := hvf.1.2
    rw [validKids] at h0
    · exact absurd rfl h0.1
    · intro w h
      simp at h
  | [Node.mk w (c :: cs)] =>
    rw [validKids]
    · exact ⟨hne, hvf⟩
    · intro w' h
      simp at h
  | a :: b :: rest =>
    rw [validKids]
    · exact ⟨hne, hvf⟩
    · intro w h
      simp at h

theorem validForest_nil : validForest [] := by
  rw [validForest]
  trivial

/-- Soundness of the recursive-descent parser with respect to the rose
view: a successful parseNode appends exactly the preorder layout of one
valid rose tree (and returns its base id), parseChildren that of a
non-empty valid forest, parseMore that of a possibly empty one. -/
theorem parse_sound (fuel : Nat) :
    (∀ tree input tree' node rest,
      parseNode fuel tree input = .ok (tree', node, rest) →
      ∃ r, validNode r ∧ tree' = appendTree tree r
        ∧ node = (tree.Topology.NumNodes : Int))
    ∧ (∀ tree input tree' cids rest,
      parseChildren fuel tree input = .ok (tree', cids, rest) →
      ∃ rs, rs ≠ [] ∧ validForest rs ∧ tree' = appendForest tree rs
        ∧ cids = childIds rs (tree.Topology.NumNodes : Int))
    ∧ (∀ tree cids0 input tree' cids rest,
      parseMore fuel tree cids0 input = .ok (tree', cids, rest) →
      ∃ rs, validForest rs ∧ tree' = appendForest tree rs
        ∧ cids = cids0 ++ childIds rs (tree.Topology.NumNodes : Int)) := by
  induction fuel with
  | zero =>
    refine ⟨?_, ?_, ?_⟩
    · intro tree input tree' node rest h
      simp [parseNode] at h
    · intro tree input tree' cids rest h
      simp [parseChildren] at h
    · intro tree cids0 input tree' cids rest h
      simp [parseMore] at h
  | succ fuel ih =>
    obtain ⟨ihN, ihC, ihM⟩ := ih
    refine ⟨?_, ?_, ?_⟩
    · -- parseNode
      intro tree input tree' node rest h
      rw [parseNode] at h
      split at h
      · simp at h
      · rename_i tok kind rest0 hnt
        split at h
        · simp at h
        · rename_i hk
          rw [not_not] at hk
          subst hk
          split at h
          · simp at h
          · rename_i tok2 kind2 rest2 hnt2
            split at h
            · simp at h
            · rename_i hk2
              split at h
              · rename_i hk2w
                subst hk2w
                simp only [Except.ok.injEq, Prod.mk.injEq] at h
                obtain ⟨htree, hnode, hrest⟩ := h
                refine ⟨Node.mk tok [Node.mk tok2 []], ?_, ?_, hnode.symm⟩
                · rw [validNode]
                  refine ⟨nextToken_word_valid input tok rest0 hnt, ?_⟩
                  rw [validKids]
                  exact nextToken_word_valid rest0 tok2 rest2 hnt2
                · rw [← htree, ← preterminal_eq tree tok tok2,
                    ← addNode_label_eq tree tok]
                  rfl
              · rename_i hk2w
                dsimp only at h
                split at h
                · simp at h
                · rename_i treeC cids1 rest3 hpc
                  simp only [Except.ok.injEq, Prod.mk.injEq] at h
                  obtain ⟨htree, hnode, hrest⟩ := h
                  rw [addNode_label_eq tree tok] at hpc
                  obtain ⟨rs, hne, hvf, hctree, hcids⟩ :=
                    ihC (appendTree tree (.mk tok [])) rest0 treeC cids1 rest3 hpc
                  refine ⟨Node.mk tok rs, ?_, ?_, hnode.symm⟩
                  · rw [validNode]
                    exact ⟨nextToken_word_valid input tok rest0 hnt,
                      validKids_of_forest rs hne hvf⟩
                  · rw [← htree, hctree, hcids, ← setchildren_eq tree tok rs]
                    rfl
    · -- parseChildren
      intro tree input tree' cids rest h
      rw [parseChildren] at h
      split at h
      · simp at h
      · rename_i tok kind rest0 hnt
        split at h
        · simp at h
        · rename_i hk
          split at h
          · simp at h
          · rename_i tree1 child rest1 hpn
            split at h
            · simp at h
            · rename_i tok2 kind2 rest2 hnt2
              split at h
              · simp at h
              · rename_i hk2
                rw [not_not] at hk2
                subst hk2
                obtain ⟨r, hvr, htree1, hchild⟩ := ihN tree rest0 tree1 child rest1 hpn
                obtain ⟨rs, hvf, htree', hcids⟩ :=
                  ihM tree1 [child] rest2 tree' cids rest h
                refine ⟨r :: rs, by simp, ?_, ?_, ?_⟩
                · rw [validForest]
                  exact ⟨hvr, hvf⟩
                · rw [htree', htree1, appendForest_cons]
                · rw [hcids, hchild, htree1, numNodes_appendTree, childIds]
                  push_cast
                  simp
    · -- parseMore
      intro tree cids0 input tree' cids rest h
      rw [parseMore] at h
      split at h
      · simp only [Except.ok.injEq, Prod.mk.injEq] at h
        obtain ⟨htree, hcids, hrest⟩ := h
        refine ⟨[], validForest_nil, by rw [← htree]; rfl, ?_⟩
        rw [← hcids, childIds]
        simp
      · rename_i tok kind rest0 hnt
        split at h
        · rename_i hk
          simp only [Except.ok.injEq, Prod.mk.injEq] at h
          obtain ⟨htree, hcids, hrest⟩ := h
          refine ⟨[], validForest_nil, by rw [← htree]; rfl, ?_⟩
          rw [← hcids, childIds]
          simp
        · rename_i hk
          rw [not_not] at hk
          subst hk
          split at h
          · simp at h
          · rename_i tree1 child rest1 hpn
            split at h
            · simp at h
            · rename_i tok2 kind2 rest2 hnt2
              split at h
              · simp at h
              · rename_i hk2
                rw [not_not] at hk2
                subst hk2
                obtain ⟨r, hvr, htree1, hchild⟩ := ihN tree rest0 tree1 child rest1 hpn
                obtain ⟨rs, hvf, htree', hcids⟩ :=
                  ihM tree1 (cids0 ++ [child]) rest2 tree' cids rest h
                refine ⟨r :: rs, ?_, ?_, ?_⟩
                · rw [validForest]
                  exact ⟨hvr, hvf⟩
                · rw [htree', htree1, appendForest_cons]
                · rw [hcids, hchild, htree1, numNodes_appendTree, childIds]
                  push_cast
                  simp

theorem renderForest_cons_data (c : Node) (cs : List Node) :
    (renderForest (c :: cs)).data = ' ' :: ((renderNode c).data ++ (renderForest cs).data) := by
  rw [renderForest]
  simp

theorem innerRender_data (l : String) (cs : List Node) :
    (innerRender (.mk l cs)).data = l.data ++ (renderForest cs).data := by
  rw [innerRender]
  simp

theorem validNode_children_ne (r : Node) (h : validNode r) : r.children ≠ [] := by
  cases r with
  | mk l cs =>
    rw [validNode] at h
    cases cs with
    | nil =>
      have h2 : validKids ([] : List Node) := h.2
      rw [validKids] at h2
      · exact absurd rfl h2.1
      · intro w hw
        simp at hw
    | cons c cs' => simp [Node.children]

theorem renderNode_internal_data (l : String) (c : Node) (cs : List Node) :
    (renderNode (.mk l (c :: cs))).data
      = '(' :: ((innerRender (.mk l (c :: cs))).data ++ [')']) := by
  rw [renderNode, innerRender]
  simp

theorem renderNode_valid_data (c : Node) (hv : validNode c) :
    (renderNode c).data = '(' :: ((innerRender c).data ++ [')']) := by
  cases c with
  | mk l cs =>
    cases cs with
    | nil =>
      have := validNode_children_ne _ hv
      simp [Node.children] at this
    | cons x xs => exact renderNode_internal_data l x xs

theorem validKids_cases (cs : List Node) (h : validKids cs) :
    (∃ w, cs = [Node.mk w []] ∧ validWord w)
    ∨ (cs ≠ [] ∧ validForest cs) := by
  match cs with
  | [] =>
    rw [validKids] at h
    · exact absurd rfl h.1
    · intro w hw
      simp at hw
  | [Node.mk w []] =>
    rw [validKids] at h
    exact Or.inl ⟨w, rfl, h⟩
  | [Node.mk w (c :: cs')] =>
    rw [validKids] at h
    · exact Or.inr h
    · intro w' hw
      simp at hw
  | a :: b :: rest =>
    rw [validKids] at h
    · exact Or.inr h
    · intro w hw
      simp at hw

mutual

theorem parse_complete_node : ∀ (r : Node), validNode r →
    ∀ (fuel : Nat) (tree : ParseTree) (rest : List Char), 3 * sizeN r ≤ fuel →
    parseNode fuel tree ((innerRender r).data ++ ')' :: rest)
      = .ok (appendTree tree r, (tree.Topology.NumNodes : Int), ')' :: rest)
  | .mk l cs, hv, fuel, tree, rest, hfuel => by
    have hcne : cs ≠ [] := by
      have := validNode_children_ne _ hv
      simpa [Node.children] using this
    rw [validNode] at hv
    obtain ⟨hvl, hkids⟩ := hv
    obtain ⟨c, cs', rfl⟩ := List.exists_cons_of_ne_nil hcne
    cases fuel with
    | zero =>
      rw [sizeN] at hfuel
      omega
    | succ f =>
      have hdata : (innerRender (Node.mk l (c :: cs'))).data ++ ')' :: rest
          = l.data ++ ' ' :: (((renderNode c).data ++ (renderForest cs').data)
            ++ ')' :: rest) := by
        rw [innerRender_data, renderForest_cons_data]
        simp
      rw [parseNode, hdata]
      have htok := nextToken_word l ' '
        ((((renderNode c).data ++ (renderForest cs').data)) ++ ')' :: rest) hvl (by rfl)
      split
      · rename_i heq
        rw [htok] at heq
        simp at heq
      · rename_i tok kind rest0 heq
        rw [htok] at heq
        simp only [Option.some.injEq, Prod.mk.injEq] at heq
        obtain ⟨h1, h2, h3⟩ := heq
        subst h1
        subst h2
        subst h3
        rw [if_neg (by simp)]
        dsimp only
        rcases validKids_cases _ hkids with ⟨w, hpre, hvw⟩ | ⟨_, hvf⟩
        · -- pre-terminal: cs = [.mk w []]
          have hc : c = Node.mk w [] := by
            injection hpre with ha hb
          have hcs' : cs' = [] := by
            injection hpre with ha hb
          subst hc
          subst hcs'
          have hx : (' ' :: (((renderNode (Node.mk w [])).data ++ (renderForest []).data)
              ++ ')' :: rest)) = ' ' :: (w.data ++ ')' :: rest) := by
            rw [renderNode, renderForest]
            simp
          rw [hx]
          have htok2 : nextToken (' ' :: (w.data ++ ')' :: rest))
              = some (w, .kWord, ')' :: rest) := by
            rw [nextToken_space]
            exact nextToken_word w ')' rest hvw (by rfl)
          split
          · rename_i heq
            rw [htok2] at heq
            simp at heq
          · rename_i tok2 kind2 rest2 heq
            rw [htok2] at heq
            simp only [Option.some.injEq, Prod.mk.injEq] at heq
            obtain ⟨h1, h2, h3⟩ := heq
            subst h1
            subst h2
            subst h3
            rw [if_neg (by simp), if_pos rfl]
            rw [← preterminal_eq tree l w, ← addNode_label_eq tree l]
            rfl
        · -- general children
          have hcv : validNode c := by
            rw [validForest] at hvf
            exact hvf.1
          have hx : (' ' :: (((renderNode c).data ++ (renderForest cs').data)
              ++ ')' :: rest))
              = ' ' :: ('(' :: (((innerRender c).data ++ [')'])
                ++ ((renderForest cs').data ++ ')' :: rest))) := by
            rw [renderNode_valid_data c hcv]
            simp
          rw [hx]
          have htok3 : nextToken (' ' :: ('(' :: (((innerRender c).data ++ [')'])
              ++ ((renderForest cs').data ++ ')' :: rest))))
              = some ("(", .kOpen, ((innerRender c).data ++ [')'])
                  ++ ((renderForest cs').data ++ ')' :: rest)) := by
            rw [nextToken_space, nextToken_open]
          split
          · rename_i heq
            rw [htok3] at heq
            simp at heq
          · rename_i tok2 kind2 rest2 heq
            rw [htok3] at heq
            simp only [Option.some.injEq, Prod.mk.injEq] at heq
            obtain ⟨h1, h2, h3⟩ := heq
            subst h1
            subst h2
            subst h3
            rw [if_neg (by simp), if_neg (by simp)]
            have hforest : ' ' :: ('(' :: (((innerRender c).data ++ [')'])
                ++ ((renderForest cs').data ++ ')' :: rest)))
                = (renderForest (c :: cs')).data ++ ')' :: rest := by
              rw [renderForest_cons_data, renderNode_valid_data c hcv]
              simp
            rw [hforest]
            have hchildren := parse_complete_children (c :: cs') hvf (by simp) f
              (appendTree tree (.mk l [])) rest
              (by rw [sizeN] at hfuel; omega)
            rw [← addNode_label_eq tree l] at hchildren
            split
            · rename_i heq
              rw [hchildren] at heq
              simp at heq
            · rename_i treeC cids1 rest3 heq
              rw [hchildren] at heq
              simp only [Except.ok.injEq, Prod.mk.injEq] at heq
              obtain ⟨h1, h2, h3⟩ := heq
              subst h1
              subst h2
              subst h3
              rw [addNode_label_eq tree l]
              rw [← setchildren_eq tree l (c :: cs'), ← addNode_label_eq tree l]
              rfl

theorem parse_complete_children : ∀ (rs : List Node), validForest rs → rs ≠ [] →
    ∀ (fuel : Nat) (tree : ParseTree) (rest : List Char), 3 * sizeF rs + 1 ≤ fuel →
    parseChildren fuel tree ((renderForest rs).data ++ ')' :: rest)
      = .ok (appendForest tree rs, childIds rs (tree.Topology.NumNodes : Int), ')' :: rest)
  | [], _, hne, _, _, _, _ => absurd rfl hne
  | c :: cs, hvf, _, fuel, tree, rest, hfuel => by
    have hcv : validNode c := by
      rw [validForest] at hvf
      exact hvf.1
    have hcsv : validForest cs := by
      rw [validForest] at hvf
      exact hvf.2
    cases fuel with
    | zero => omega
    | succ f =>
      have hdata : (renderForest (c :: cs)).data ++ ')' :: rest
          = ' ' :: ('(' :: (((innerRender c).data
              ++ ')' :: ((renderForest cs).data ++ ')' :: rest)))) := by
        rw [renderForest_cons_data, renderNode_valid_data c hcv]
        simp
      rw [parseChildren, hdata]
      have htok : nextToken (' ' :: ('(' :: (((innerRender c).data
          ++ ')' :: ((renderForest cs).data ++ ')' :: rest)))))
          = some ("(", .kOpen, (innerRender c).data
              ++ ')' :: ((renderForest cs).data ++ ')' :: rest)) := by
        rw [nextToken_space, nextToken_open]
      split
      · rename_i heq
        rw [htok] at heq
        simp at heq
      · rename_i tok kind rest0 heq
        rw [htok] at heq
        simp only [Option.some.injEq, Prod.mk.injEq] at heq
        obtain ⟨h1, h2, h3⟩ := heq
        subst h1
        subst h2
        subst h3
        rw [if_neg (by simp)]
        have hnode := parse_complete_node c hcv f tree
          ((renderForest cs).data ++ ')' :: rest)
          (by rw [sizeF] at hfuel; omega)
        split
        · rename_i heq
          rw [hnode] at heq
          simp at heq
        · rename_i tree1 child rest1 heq
          rw [hnode] at heq
          simp only [Except.ok.injEq, Prod.mk.injEq] at heq
          obtain ⟨h1, h2, h3⟩ := heq
          subst h1
          subst h2
          subst h3
          split
          · rename_i heq
            rw [nextToken_close] at heq
            simp at heq
          · rename_i tok2 kind2 rest2 heq
            rw [nextToken_close] at heq
            simp only [Option.some.injEq, Prod.mk.injEq] at heq
            obtain ⟨h1, h2, h3⟩ := heq
            subst h1
            subst h2
            subst h3
            rw [if_neg (by simp)]
            have hmore := parse_complete_more cs hcsv f (appendTree tree c)
              [(tree.Topology.NumNodes : Int)] rest
              (by rw [sizeF] at hfuel; have := sizeN_pos c; omega)
            rw [hmore, appendForest_cons, numNodes_appendTree, childIds]
            push_cast
            simp

theorem parse_complete_more : ∀ (rs : List Node), validForest rs →
    ∀ (fuel : Nat) (tree : ParseTree) (cids0 : List NodeId) (rest : List Char),
    3 * sizeF rs + 1 ≤ fuel →
    parseMore fuel tree cids0 ((renderForest rs).data ++ ')' :: rest)
      = .ok (appendForest tree rs,
          cids0 ++ childIds rs (tree.Topology.NumNodes : Int), ')' :: rest)
  | [], _, fuel, tree, cids0, rest, hfuel => by
    cases fuel with
    | zero => omega
    | succ f =>
      have hdata : (renderForest ([] : List Node)).data ++ ')' :: rest = ')' :: rest := by
        rw [renderForest]
        simp
      rw [parseMore, hdata]
      split
      · rename_i heq
        rw [nextToken_close] at heq
        simp at heq
      · rename_i tok kind rest0 heq
        rw [nextToken_close] at heq
        simp only [Option.some.injEq, Prod.mk.injEq] at heq
        obtain ⟨h1, h2, h3⟩ := heq
        subst h1
        subst h2
        subst h3
        rw [if_pos (by simp)]
        rw [childIds]
        simp [appendForest]
  | c :: cs, hvf, fuel, tree, cids0, rest, hfuel => by
    have hcv : validNode c := by
      rw [validForest] at hvf
      exact hvf.1
    have hcsv : validForest cs := by
      rw [validForest] at hvf
      exact hvf.2
    cases fuel with
    | zero => omega
    | succ f =>
      have hdata : (renderForest (c :: cs)).data ++ ')' :: rest
          = ' ' :: ('(' :: (((innerRender c).data
              ++ ')' :: ((renderForest cs).data ++ ')' :: rest)))) := by
        rw [renderForest_cons_data, renderNode_valid_data c hcv]
        simp
      rw [parseMore, hdata]
      have htok : nextToken (' ' :: ('(' :: (((innerRender c).data
          ++ ')' :: ((renderForest cs).data ++ ')' :: rest)))))
          = some ("(", .kOpen, (innerRender c).data
              ++ ')' :: ((renderForest cs).data ++ ')' :: rest)) := by
        rw [nextToken_space, nextToken_open]
      split
      · rename_i heq
        rw [htok] at heq
        simp at heq
      · rename_i tok kind rest0 heq
        rw [htok] at heq
        simp only [Option.some.injEq, Prod.mk.injEq] at heq
        obtain ⟨h1, h2, h3⟩ := heq
        subst h1
        subst h2
        subst h3
        rw [if_neg (by simp)]
        have hnode := parse_complete_node c hcv f tree
          ((renderForest cs).data ++ ')' :: rest)
          (by rw [sizeF] at hfuel; omega)
        split
        · rename_i heq
          rw [hnode] at heq
          simp at heq
        · rename_i tree1 child rest1 heq
          rw [hnode] at heq
          simp only [Except.ok.injEq, Prod.mk.injEq] at heq
          obtain ⟨h1, h2, h3⟩ := heq
          subst h1
          subst h2
          subst h3
          split
          · rename_i heq
            rw [nextToken_close] at heq
            simp at heq
          · rename_i tok2 kind2 rest2 heq
            rw [nextToken_close] at heq
            simp only [Option.some.injEq, Prod.mk.injEq] at heq
            obtain ⟨h1, h2, h3⟩ := heq
            subst h1
            subst h2
            subst h3
            rw [if_neg (by simp)]
            have hmore := parse_complete_more cs hcsv f (appendTree tree c)
              (cids0 ++ [(tree.Topology.NumNodes : Int)]) rest
              (by rw [sizeF] at hfuel; have := sizeN_pos c; omega)
            rw [hmore, appendForest_cons, numNodes_appendTree, childIds]
            push_cast
            simp

end

theorem getD_of_getq (l : List α) (n : Nat) (x d : α) (h : l.get? n = some x) :
    l.getD n d = x := by
  rw [List.getD_eq_getElem?_getD, ← List.get?_eq_getElem?, h]
  rfl

theorem embeddedAt_head (pt : ParseTree) (b : Nat) (l : String) (cs : List Node)
    (h : EmbeddedAt pt b (.mk l cs)) :
    pt.Label.get? b = some l
    ∧ pt.Topology.Children.get? b = some (childIds cs ((b : Int) + 1)) := by
  have h0 := h 0 (by have := sizeN_pos (.mk l cs); omega)
  simpa [flattenLabels, flattenChildren] using h0

theorem embeddedAt_children (pt : ParseTree) (b : Nat) (l : String) (cs : List Node)
    (h : EmbeddedAt pt b (.mk l cs)) : EmbeddedAtF pt (b + 1) cs := by
  intro k hk
  have hx := h (k + 1) (by rw [sizeN]; omega)
  rw [show b + (k + 1) = (b + 1) + k by omega] at hx
  simp only [flattenLabels, flattenChildren, List.get?_cons_succ] at hx
  refine ⟨hx.1, ?_⟩
  have := hx.2
  rw [show ((b : Int) + 1) = ((b + 1 : Nat) : Int) by push_cast; ring] at this
  exact this

theorem embeddedAtF_cons (pt : ParseTree) (b : Nat) (c : Node) (cs : List Node)
    (h : EmbeddedAtF pt b (c :: cs)) :
    EmbeddedAt pt b c ∧ EmbeddedAtF pt (b + sizeN c) cs := by
  constructor
  · intro k hk
    have hx := h k (by rw [sizeF]; have := sizeN_pos c; omega)
    simp only [flattenLabelsF, flattenChildrenF] at hx
    refine ⟨?_, ?_⟩
    · rw [hx.1, List.get?_append (by rw [flattenLabels_length]; exact hk)]
    · rw [hx.2, List.get?_append (by rw [flattenChildren_length]; exact hk)]
  · intro k hk
    have hx := h (sizeN c + k) (by rw [sizeF]; omega)
    simp only [flattenLabelsF, flattenChildrenF] at hx
    rw [show b + (sizeN c + k) = (b + sizeN c) + k by omega] at hx
    refine ⟨?_, ?_⟩
    · rw [hx.1, List.get?_append_right (by rw [flattenLabels_length]; omega)]
      rw [flattenLabels_length]
      congr 1
      omega
    · rw [hx.2, List.get?_append_right (by rw [flattenChildren_length]; omega)]
      rw [flattenChildren_length]
      rw [show ((b : Int) + (sizeN c : Int)) = ((b + sizeN c : Nat) : Int) by push_cast; ring]
      congr 1
      omega

theorem embeddedAt_empty (r : Node) :
    EmbeddedAt (appendTree { Topology := NewEmptyTopology, Label := [] } r) 0 r := by
  intro k hk
  refine ⟨?_, ?_⟩
  · simp [appendTree]
  · simp only [appendTree, NewEmptyTopology, Topology.NumNodes]
    simp

theorem embeddedAt_setRoot (pt : ParseTree) (rt : NodeId) (b : Nat) (r : Node)
    (h : EmbeddedAt pt b r) :
    EmbeddedAt { pt with Topology := pt.Topology.SetRoot rt } b r := by
  intro k hk
  have hx := h k hk
  exact ⟨hx.1, by simpa [Topology.SetRoot] using hx.2⟩

mutual

theorem dfsString_render : ∀ (r : Node) (pt : ParseTree) (b : Nat) (fuel : Nat),
    2 * sizeN r ≤ fuel → EmbeddedAt pt b r →
    dfsString pt fuel (b : Int) = renderNode r
  | .mk l cs, pt, b, fuel, hfuel, hemb => by
    cases fuel with
    | zero =>
      have := sizeN_pos (.mk l cs)
      omega
    | succ f =>
      obtain ⟨hlab, hch⟩ := embeddedAt_head pt b l cs hemb
      have hgetlab : pt.Label.getD ((b : Int)).toNat "" = l := by
        rw [Int.toNat_natCast]
        exact getD_of_getq _ _ _ _ hlab
      have hchAt : pt.Topology.ChildrenAt (b : Int) = childIds cs ((b : Int) + 1) := by
        rw [Topology.ChildrenAt, Int.toNat_natCast]
        exact getD_of_getq _ _ _ _ hch
      rw [dfsString]
      cases cs with
      | nil =>
        have hleaf : pt.Topology.Leaf (b : Int) = true := by
          rw [Topology.Leaf, hchAt]
          rfl
        rw [if_pos (by rw [hleaf])]
        rw [hgetlab, renderNode]
      | cons c cs' =>
        have hleaf : pt.Topology.Leaf (b : Int) = false := by
          rw [Topology.Leaf, hchAt, childIds]
          simp
        rw [if_neg (by rw [hleaf]; simp)]
        rw [hgetlab, hchAt]
        rw [show ((b : Int) + 1) = ((b + 1 : Nat) : Int) by push_cast; ring]
        rw [dfsStringChildren_render (c :: cs') pt (b + 1) f
          (by rw [sizeN] at hfuel; omega)
          (embeddedAt_children pt b l (c :: cs') hemb)]
        rw [renderNode]

theorem dfsStringChildren_render : ∀ (rs : List Node) (pt : ParseTree) (b : Nat)
    (fuel : Nat), 2 * sizeF rs + 1 ≤ fuel → EmbeddedAtF pt b rs →
    dfsStringChildren pt fuel (childIds rs (b : Int)) = renderForest rs
  | rs, pt, b, fuel, hfuel, hemb => by
    cases fuel with
    | zero => omega
    | succ f =>
      cases rs with
      | nil =>
        rw [childIds, dfsStringChildren, renderForest]
      | cons c cs =>
        obtain ⟨h1, h2⟩ := embeddedAtF_cons pt b c cs hemb
        rw [childIds, dfsStringChildren]
        rw [dfsString_render c pt b f
          (by rw [sizeF] at hfuel; omega) h1]
        rw [show ((b : Int) + (sizeN c : Int)) = ((b + sizeN c : Nat) : Int) by
          push_cast; ring]
        rw [dfsStringChildren_render cs pt (b + sizeN c) f
          (by rw [sizeF] at hfuel; have := sizeN_pos c; omega) h2]
        rw [renderForest]

end

mutual

theorem renderNode_len : ∀ r : Node, validNode r →
    2 * sizeN r ≤ (renderNode r).data.length + 1
  | .mk l cs, hv => by
    have hcne : cs ≠ [] := by
      have := validNode_children_ne _ hv
      simpa [Node.children] using this
    rw [validNode] at hv
    obtain ⟨hvl, hkids⟩ := hv
    obtain ⟨c, cs', rfl⟩ := List.exists_cons_of_ne_nil hcne
    have hlen : (renderNode (.mk l (c :: cs'))).data.length
        = l.data.length + (renderForest (c :: cs')).data.length + 2 := by
      rw [renderNode_internal_data, innerRender_data]
      simp
      omega
    have hl : 1 ≤ l.data.length := by
      have := hvl.1
      cases hd : l.data with
      | nil => exact absurd hd this
      | cons a as => simp [hd]
    have hforest : 2 * sizeF (c :: cs') ≤ (renderForest (c :: cs')).data.length := by
      rcases validKids_cases _ hkids with ⟨w, hpre, hvw⟩ | ⟨_, hvf⟩
      · have hc : c = Node.mk w [] := by injection hpre
        have hcs' : cs' = [] := by injection hpre
        subst hc
        subst hcs'
        have hw : 1 ≤ w.data.length := by
          have := hvw.1
          cases hd : w.data with
          | nil => exact absurd hd this
          | cons a as => simp [hd]
        have hval : (renderForest [Node.mk w []]).data.length = w.data.length + 1 := by
          rw [renderForest_cons_data, renderNode, renderForest]
          simp
        have hsz : sizeF [Node.mk w []] = 1 := by
          rw [sizeF, sizeN, sizeF]
        rw [hval, hsz]
        omega
      · exact renderForest_len (c :: cs') hvf
    rw [sizeN]
    omega

theorem renderForest_len : ∀ rs : List Node, validForest rs →
    2 * sizeF rs ≤ (renderForest rs).data.length
  | [], _ => by
    rw [sizeF, renderForest]
    simp
  | c :: cs, hvf => by
    have hcv : validNode c := by
      rw [validForest] at hvf
      exact hvf.1
    have hcsv : validForest cs := by
      rw [validForest] at hvf
      exact hvf.2
    have h1 := renderNode_len c hcv
    have h2 := renderForest_len cs hcsv
    rw [renderForest_cons_data] at *
    rw [sizeF]
    simp only [List.length_cons, List.length_append]
    omega

end

theorem innerRender_head_token (l : String) (c : Node) (cs' : List Node)
    (hvl : validWord l) (tail : List Char) :
    nextToken ((innerRender (.mk l (c :: cs'))).data ++ tail)
      = some (l, .kWord, (renderForest (c :: cs')).data ++ tail) := by
  rw [innerRender_data, renderForest_cons_data]
  have h := nextToken_word l ' '
    (((renderNode c).data ++ (renderForest cs').data) ++ tail) hvl (by rfl)
  simpa [List.append_assoc] using h

theorem next_ok_shape (input : List Char) (pt : ParseTree) (rest : List Char)
    (h : Next input = .ok (pt, rest)) :
    pt = { Topology := NewEmptyTopology, Label := [] }
    ∨ ∃ r, validNode r ∧
      pt = { appendTree { Topology := NewEmptyTopology, Label := [] } r with
        Topology :=
          (appendTree { Topology := NewEmptyTopology, Label := [] } r).Topology.SetRoot 0 } := by
  simp only [Next] at h
  split at h
  · simp at h
  · rename_i tree1 root rest1 hps
    simp only [Except.ok.injEq, Prod.mk.injEq] at h
    obtain ⟨hpt, hrest⟩ := h
    subst hpt
    rw [parseS] at hps
    split at hps
    · simp at hps
    · rename_i tok kind rest' heq1
      split at hps
      · simp at hps
      · split at hps
        · simp at hps
        · rename_i treeT rootT restT heqT
          split at hps
          · simp at hps
          · rename_i tok2 kind2 rest2 heq2
            split at hps
            · simp at hps
            · dsimp only at hps
              simp only [Except.ok.injEq, Prod.mk.injEq] at hps
              obtain ⟨hpt2, hroot2, hrest2⟩ := hps
              rw [parseTree] at heqT
              split at heqT
              · simp at heqT
              · rename_i tok3 kind3 rest3 heq3
                split at heqT
                · simp at heqT
                · split at heqT
                  · rename_i tok4 rest4 heq4
                    simp only [Except.ok.injEq, Prod.mk.injEq] at heqT
                    obtain ⟨hT, hR, hRe⟩ := heqT
                    subst hT
                    subst hR
                    rw [if_neg (by simp)] at hpt2
                    exact Or.inl hpt2.symm
                  · split at heqT
                    · simp at heqT
                    · rename_i treeN nodeN restN heqN
                      split at heqT
                      · simp at heqT
                      · rename_i tok5 kind5 rest5 heq5
                        split at heqT
                        · simp at heqT
                        · simp only [Except.ok.injEq, Prod.mk.injEq] at heqT
                          obtain ⟨hT, hR, hRe⟩ := heqT
                          subst hT
                          subst hR
                          obtain ⟨r, hr, htreeN, hnodeN⟩ :=
                            (parse_sound (2 * input.length + 4)).1 _ _ _ _ _ heqN
                          subst htreeN
                          subst hnodeN
                          refine Or.inr ⟨r, hr, ?_⟩
                          rw [if_pos (by decide)] at hpt2
                          exact hpt2.symm

theorem parseTree_of_render (l : String) (c : Node) (cs' : List Node)
    (hr : validNode (.mk l (c :: cs'))) (fuel : Nat)
    (hfuel : 3 * sizeN (.mk l (c :: cs')) ≤ fuel) (tail : List Char) :
    parseTree fuel { Topology := NewEmptyTopology, Label := [] }
        ('(' :: ((innerRender (.mk l (c :: cs'))).data ++ ')' :: tail))
      = .ok (appendTree { Topology := NewEmptyTopology, Label := [] } (.mk l (c :: cs')),
          0, tail) := by
  have hvl : validWord l := by
    rw [validNode] at hr
    exact hr.1
  rw [parseTree]
  split
  · rename_i heq
    rw [nextToken_open] at heq
    simp at heq
  · rename_i tok kind rest0 heq
    rw [nextToken_open] at heq
    simp only [Option.some.injEq, Prod.mk.injEq] at heq
    obtain ⟨h1, h2, h3⟩ := heq
    subst h1
    subst h2
    subst h3
    rw [if_neg (by simp)]
    have htokpeek := innerRender_head_token l c cs' hvl (')' :: tail)
    split
    · rename_i tok2 rest4 heq
      rw [htokpeek] at heq
      simp at heq
    · have hpn := parse_complete_node (.mk l (c :: cs')) hr fuel
        { Topology := NewEmptyTopology, Label := [] } tail hfuel
      split
      · rename_i heq
        rw [hpn] at heq
        simp at heq
      · rename_i treeN nodeN restN heq
        rw [hpn] at heq
        simp only [Except.ok.injEq, Prod.mk.injEq] at heq
        obtain ⟨h1, h2, h3⟩ := heq
        subst h1
        subst h2
        subst h3
        split
        · rename_i heq
          rw [nextToken_close] at heq
          simp at heq
        · rename_i tok5 kind5 rest5 heq
          rw [nextToken_close] at heq
          simp only [Option.some.injEq, Prod.mk.injEq] at heq
          obtain ⟨h1, h2, h3⟩ := heq
          subst h1
          subst h2
          subst h3
          rw [if_neg (by simp)]
          rfl

theorem string_of_root_tree (r : Node) :
    ParseTree.String { appendTree { Topology := NewEmptyTopology, Label := [] } r with
        Topology :=
          (appendTree { Topology := NewEmptyTopology, Label := [] } r).Topology.SetRoot 0 }
      = "(" ++ renderNode r ++ ")" := by
  have hemb := embeddedAt_setRoot
    (appendTree { Topology := NewEmptyTopology, Label := [] } r) 0 0 r (embeddedAt_empty r)
  rw [ParseTree.String]
  rw [if_neg (by simp [Topology.SetRoot, NoNodeId])]
  have hN : ({ appendTree { Topology := NewEmptyTopology, Label := [] } r with
      Topology :=
        (appendTree { Topology := NewEmptyTopology, Label := [] } r).Topology.SetRoot 0 }
        : ParseTree).Topology.NumNodes = sizeN r := by
    simp [Topology.SetRoot, Topology.NumNodes, appendTree, NewEmptyTopology,
      flattenChildren_length]
  have hRoot : ({ appendTree { Topology := NewEmptyTopology, Label := [] } r with
      Topology :=
        (appendTree { Topology := NewEmptyTopology, Label := [] } r).Topology.SetRoot 0 }
        : ParseTree).Topology.Root = ((0 : Nat) : Int) := rfl
  rw [hRoot, hN]
  rw [dfsString_render r _ 0 (2 * sizeN r + 2) (by omega) hemb]

/-- C1: round trip — for every tree `pt` produced by the parser entry
point `Next` (on any input), rendering it back to bracketed text with
`ParseTree.String` and re-parsing that text yields exactly the same
tree (same topology, same labels, and the whole rendered text is
consumed), even though the rendered text need not be byte-identical to
the original input. -/
theorem c1_round_trip (input : List Char) (pt : ParseTree) (rest : List Char)
    (h : Next input = .ok (pt, rest)) :
    Next (pt.String).data = .ok (pt, []) := by
  rcases next_ok_shape input pt rest h with hempty | ⟨r, hr, hshape⟩
  · subst hempty
    rfl
  · obtain ⟨l, cs⟩ := r
    have hcne : cs ≠ [] := by
      have := validNode_children_ne _ hr
      simpa [Node.children] using this
    obtain ⟨c, cs', rfl⟩ := List.exists_cons_of_ne_nil hcne
    subst hshape
    rw [string_of_root_tree]
    have hdata : ("(" ++ renderNode (.mk l (c :: cs')) ++ ")").data
        = '(' :: ('(' :: ((innerRender (.mk l (c :: cs'))).data ++ ')' :: [')'])) := by
      have hx := renderNode_valid_data _ hr
      simp [String.data_append, hx]
    rw [hdata]
    simp only [Next]
    have hL : ('(' :: ('(' :: ((innerRender (.mk l (c :: cs'))).data
        ++ ')' :: [')']))).length
        = (innerRender (.mk l (c :: cs'))).data.length + 4 := by
      simp
    rw [hL]
    have hfuel : 3 * sizeN (.mk l (c :: cs'))
        ≤ 2 * ((innerRender (.mk l (c :: cs'))).data.length + 4) + 4 := by
      have h1 := renderNode_len _ hr
      have h2 : (renderNode (.mk l (c :: cs'))).data.length
          = (innerRender (.mk l (c :: cs'))).data.length + 2 := by
        rw [renderNode_valid_data _ hr]
        simp
      omega
    have hptree := parseTree_of_render l c cs' hr
      (2 * ((innerRender (.mk l (c :: cs'))).data.length + 4) + 4) hfuel [')']
    have hps : parseS (2 * ((innerRender (.mk l (c :: cs'))).data.length + 4) + 4)
        { Topology := NewEmptyTopology, Label := [] }
        ('(' :: ('(' :: ((innerRender (.mk l (c :: cs'))).data ++ ')' :: [')'])))
        = .ok ({ appendTree { Topology := NewEmptyTopology, Label := [] }
              (.mk l (c :: cs')) with
            Topology := (appendTree { Topology := NewEmptyTopology, Label := [] }
              (.mk l (c :: cs'))).Topology.SetRoot 0 }, 0, []) := by
      rw [parseS]
      split
      · rename_i heq
        rw [nextToken_open] at heq
        simp at heq
      · rename_i tok kind rest0 heq
        rw [nextToken_open] at heq
        simp only [Option.some.injEq, Prod.mk.injEq] at heq
        obtain ⟨h1, h2, h3⟩ := heq
        subst h1
        subst h2
        subst h3
        rw [if_neg (by simp)]
        split
        · rename_i heq
          rw [hptree] at heq
          simp at heq
        · rename_i treeT rootT restT heq
          rw [hptree] at heq
          simp only [Except.ok.injEq, Prod.mk.injEq] at heq
          obtain ⟨h1, h2, h3⟩ := heq
          subst h1
          subst h2
          subst h3
          split
          · rename_i heq2
            rw [nextToken_close] at heq2
            simp at heq2
          · rename_i tok2 kind2 rest2 heq2
            rw [nextToken_close] at heq2
            simp only [Option.some.injEq, Prod.mk.injEq] at heq2
            obtain ⟨h1, h2, h3⟩ := heq2
            subst h1
            subst h2
            subst h3
            rw [if_neg (by simp)]
            dsimp only
            rw [if_pos (by decide)]
    rw [hps]

theorem c1_round_trip_witness :
    Next (ParseTree.String
        { Topology := ⟨0, [[1], []]⟩, Label := ["A", "b"] }).data
      = .ok ({ Topology := ⟨0, [[1], []]⟩, Label := ["A", "b"] }, []) :=
  c1_round_trip "((A b))".data
    { Topology := ⟨0, [[1], []]⟩, Label := ["A", "b"] } [] (by rfl)

/-- C9 counterexample: in the parse of `((S (X y) (-NONE- (NP *PRO*))))`
no leaf carries the label "-NONE-" (the only leaves are `y` and `*PRO*`),
so a removal pass seeded only by -NONE- leaves would remove nothing; yet
`RemoveNone` changes the tree (it removes the internal -NONE- node and
its whole subtree). -/
theorem c9_counterexample :
    ∃ t t' : ParseTree,
      Next "((S (X y) (-NONE- (NP *PRO*))))".data = .ok (t, [])
      ∧ (∀ i : Fin t.Topology.NumNodes,
          ¬(t.Topology.Leaf ((i : Nat) : Int) = true
            ∧ t.Label.getD (i : Nat) "" = "-NONE-"))
      ∧ t.RemoveNone = .ok t'
      ∧ t' ≠ t := by
  refine ⟨⟨⟨0, [[1, 3], [2], [], [4], [5], []]⟩, none,
      ["S", "X", "y", "-NONE-", "NP", "*PRO*"], [], [], [], []⟩,
    ⟨⟨0, [[1], [2], []]⟩, none, ["S", "X", "y"], [], [], [], []⟩, ?_, ?_, ?_, ?_⟩
  · rfl
  · decide
  · rfl
  · decide

/-- C9 (amended): the marking pass of RemoveNone marks every node whose
label is exactly "-NONE-", leaf or internal (the node's children play no
role in that branch); and the claim's scenario holds: RemoveNone on the
parse of `((S (NP (-NONE- (NP *PRO*)))))` yields the empty tree, with
root NoNodeId, no nodes and an empty label array. -/
theorem c9_remove_none :
    (∀ (tree : ParseTree) (i : Nat) (inv : List Bool),
      tree.Label.getD i "" = "-NONE-" →
      markInvisible tree (i + 1) inv = markInvisible tree i (inv.set i true))
    ∧ (∃ t t' : ParseTree,
        Next "((S (NP (-NONE- (NP *PRO*)))))".data = .ok (t, [])
        ∧ t.RemoveNone = .ok t'
        ∧ t'.Topology.Root = NoNodeId ∧ t'.Topology.NumNodes = 0 ∧ t'.Label = []) := by
  constructor
  · intro tree i inv h
    rw [markInvisible]
    rw [if_pos h]
  · exact ⟨⟨⟨0, [[1], [2], [3], [4], []]⟩, none,
        ["S", "NP", "-NONE-", "NP", "*PRO*"], [], [], [], []⟩,
      ⟨⟨-1, []⟩, none, [], [], [], [], []⟩, rfl, rfl, rfl, rfl, rfl⟩

theorem c9_remove_none_witness :
    markInvisible ⟨⟨-1, []⟩, none, ["-NONE-"], [], [], [], []⟩ (0 + 1) [false]
      = markInvisible ⟨⟨-1, []⟩, none, ["-NONE-"], [], [], [], []⟩ 0
          ([false].set 0 true) :=
  c9_remove_none.1 ⟨⟨-1, []⟩, none, ["-NONE-"], [], [], [], []⟩ 0 [false] (by rfl)

theorem idxI_lt_length (l : List NodeId) (x : NodeId) (h : x ∈ l) :
    idxI l x < l.length := by
  induction l with
  | nil => simp at h
  | cons y l ih =>
    rw [idxI]
    by_cases hyx : y = x
    · rw [if_pos hyx]
      simp
    · rw [if_neg hyx]
      have hx : x ∈ l := by
        rcases List.mem_cons.mp h with h1 | h1
        · exact absurd h1.symm hyx
        · exact h1
      simpa using ih hx

theorem idxI_append_left (l1 l2 : List NodeId) (x : NodeId) (h : x ∈ l1) :
    idxI (l1 ++ l2) x = idxI l1 x := by
  induction l1 with
  | nil => simp at h
  | cons y l ih =>
    rw [List.cons_append, idxI, idxI]
    by_cases hyx : y = x
    · rw [if_pos hyx, if_pos hyx]
    · rw [if_neg hyx, if_neg hyx]
      have hx : x ∈ l := by
        rcases List.mem_cons.mp h with h1 | h1
        · exact absurd h1.symm hyx
        · exact h1
      rw [ih hx]

theorem idxI_append_right (l1 l2 : List NodeId) (x : NodeId) (h : x ∉ l1) :
    idxI (l1 ++ l2) x = l1.length + idxI l2 x := by
  induction l1 with
  | nil => simp
  | cons y l ih =>
    rw [List.cons_append, idxI]
    have hyx : y ≠ x := by
      intro hc
      exact h (hc ▸ List.mem_cons_self y l)
    rw [if_neg hyx]
    have hx : x ∉ l := fun hc => h (List.mem_cons_of_mem y hc)
    rw [ih hx, List.length_cons]
    omega

theorem getD_idxI (l : List NodeId) (x : NodeId) (h : x ∈ l) :
    l.getD (idxI l x) 0 = x := by
  induction l with
  | nil => simp at h
  | cons y l ih =>
    rw [idxI]
    by_cases hyx : y = x
    · rw [if_pos hyx]
      simpa using hyx
    · rw [if_neg hyx]
      have hx : x ∈ l := by
        rcases List.mem_cons.mp h with h1 | h1
        · exact absurd h1.symm hyx
        · exact h1
      simpa using ih hx

theorem idxI_getD (l : List NodeId) (hnd : l.Nodup) (i : Nat) (h : i < l.length) :
    idxI l (l.getD i 0) = i := by
  induction l generalizing i with
  | nil => simp at h
  | cons y l ih =>
    cases i with
    | zero =>
      rw [idxI]
      simp
    | succ j =>
      have hnd2 := List.nodup_cons.mp hnd
      have hj : j < l.length := by
        rw [List.length_cons] at h
        omega
      have hmem : l.getD j 0 ∈ l := by
        rw [List.getD_eq_getElem?_getD, List.getElem?_eq_getElem hj]
        exact List.getElem_mem hj
      rw [idxI]
      have hgd : (y :: l).getD (j + 1) 0 = l.getD j 0 := by
        simp [List.getD_cons_succ]
      rw [hgd]
      have hyne : y ≠ l.getD j 0 := by
        intro hc
        exact hnd2.1 (hc ▸ hmem)
      rw [if_neg hyne, ih hnd2.2 j hj]

theorem childConcat_nil (t : Topology) : childConcat t [] = [] := rfl

theorem childConcat_cons (t : Topology) (x : NodeId) (l : List NodeId) :
    childConcat t (x :: l) = t.ChildrenAt x ++ childConcat t l := by
  simp [childConcat]

theorem childConcat_append (t : Topology) (a b : List NodeId) :
    childConcat t (a ++ b) = childConcat t a ++ childConcat t b := by
  simp [childConcat]

theorem getD_set_self_bool (l : List Bool) (i : Nat) (v : Bool) (h : i < l.length) :
    (l.set i v).getD i false = v := by
  rw [List.getD_eq_getElem?_getD, List.getElem?_set_self]
  · simp
  · exact h

theorem getD_set_ne_bool (l : List Bool) (i j : Nat) (v : Bool) (h : i ≠ j) :
    (l.set i v).getD j false = l.getD j false := by
  rw [List.getD_eq_getElem?_getD, List.getElem?_set_ne h, ← List.getD_eq_getElem?_getD]


/-- dfs_sound collects the postconditions of a successful Topsort
traversal: the visited list grows by a fresh, duplicate-free segment
headed by the start node, the visited marks stay in sync with the
traversal, every child of a traversed node is traversed later, every
traversed node except the head is some earlier node's child, and the
segment is one longer than the concatenation of its children lists. -/
theorem dfs_sound (t : Topology) (hwf : t.WFChildren) (fuel : Nat) :
    (∀ (n : NodeId) (ns : List NodeId) (visited : List Bool) ns' visited',
      dfsTraverse t fuel n ns visited = .ok (ns', visited') →
      visited.length = t.NumNodes →
      (∀ i : Nat, i < t.NumNodes → (visited.getD i false = true ↔ (i : Int) ∈ ns)) →
      0 ≤ n → n.toNat < t.NumNodes →
      ∃ new, ns' = ns ++ new
        ∧ visited'.length = t.NumNodes
        ∧ (∀ i : Nat, i < t.NumNodes → (visited'.getD i false = true ↔ (i : Int) ∈ ns'))
        ∧ (∃ r, new = n :: r)
        ∧ (∀ x ∈ new, 0 ≤ x ∧ x.toNat < t.NumNodes)
        ∧ (∀ x ∈ new, x ∉ ns)
        ∧ new.Nodup
        ∧ (∀ x ∈ new, ∀ c ∈ t.ChildrenAt x, ∃ a b, new = a ++ b ∧ x ∈ a ∧ c ∈ b)
        ∧ (∀ x ∈ new, x = n
            ∨ ∃ y a b, new = a ++ b ∧ y ∈ a ∧ x ∈ b ∧ x ∈ t.ChildrenAt y)
        ∧ new.length = 1 + (childConcat t new).length)
    ∧ (∀ (cs : List NodeId) (ns : List NodeId) (visited : List Bool) ns' visited',
      dfsForest t fuel cs ns visited = .ok (ns', visited') →
      visited.length = t.NumNodes →
      (∀ i : Nat, i < t.NumNodes → (visited.getD i false = true ↔ (i : Int) ∈ ns)) →
      (∀ c ∈ cs, 0 ≤ c ∧ c.toNat < t.NumNodes) →
      ∃ new, ns' = ns ++ new
        ∧ visited'.length = t.NumNodes
        ∧ (∀ i : Nat, i < t.NumNodes → (visited'.getD i false = true ↔ (i : Int) ∈ ns'))
        ∧ (∀ c ∈ cs, c ∈ new)
        ∧ (∀ x ∈ new, 0 ≤ x ∧ x.toNat < t.NumNodes)
        ∧ (∀ x ∈ new, x ∉ ns)
        ∧ new.Nodup
        ∧ (∀ x ∈ new, ∀ c ∈ t.ChildrenAt x, ∃ a b, new = a ++ b ∧ x ∈ a ∧ c ∈ b)
        ∧ (∀ x ∈ new, x ∈ cs
            ∨ ∃ y a b, new = a ++ b ∧ y ∈ a ∧ x ∈ b ∧ x ∈ t.ChildrenAt y)
        ∧ new.length = cs.length + (childConcat t new).length) := by
  induction fuel with
  | zero =>
    constructor
    · intro n ns visited ns' visited' h
      simp [dfsTraverse] at h
    · intro cs ns visited ns' visited' h
      cases cs with
      | nil => simp [dfsForest] at h
      | cons c cs' => simp [dfsForest] at h
  | succ fuel ih =>
    obtain ⟨ihT, ihF⟩ := ih
    constructor
    · intro n ns visited ns' visited' h hlen hinv hn0 hnN
      rw [dfsTraverse] at h
      split at h
      · simp at h
      · rename_i hnvis
        have hcast : ((n.toNat : Nat) : Int) = n := Int.toNat_of_nonneg hn0
        have hnotin : n ∉ ns := by
          have hx := (hinv n.toNat hnN)
          rw [hcast] at hx
          intro hc
          exact hnvis (hx.mpr hc)
        have hlen1 : (visited.set n.toNat true).length = t.NumNodes := by
          rw [List.length_set]
          exact hlen
        have hinv1 : ∀ i : Nat, i < t.NumNodes →
            ((visited.set n.toNat true).getD i false = true ↔ (i : Int) ∈ ns ++ [n]) := by
          intro i hiN
          by_cases hin : i = n.toNat
          · subst hin
            rw [getD_set_self_bool _ _ _ (by rw [hlen]; exact hnN)]
            rw [hcast]
            simp
          · rw [getD_set_ne_bool _ _ _ _ (fun hc => hin hc.symm)]
            rw [hinv i hiN]
            constructor
            · intro hm
              exact List.mem_append_left _ hm
            · intro hm
              rcases List.mem_append.mp hm with hm | hm
              · exact hm
              · exfalso
                have hieq : (i : Int) = n := by simpa using hm
                apply hin
                rw [← hieq]
                simp
        have hcs : ∀ c ∈ t.ChildrenAt n, 0 ≤ c ∧ c.toNat < t.NumNodes := by
          intro c hc
          exact hwf n.toNat hnN c (by rwa [Topology.ChildrenAt] at hc)
        obtain ⟨newF, hns', hlen', hinv', hcsin, hrangeF, hfreshF, hndF, hcloseF,
          hparF, hcountF⟩ := ihF (t.ChildrenAt n) (ns ++ [n]) (visited.set n.toNat true)
            ns' visited' h hlen1 hinv1 hcs
        refine ⟨n :: newF, ?_, hlen', hinv', ⟨newF, rfl⟩, ?_, ?_, ?_, ?_, ?_, ?_⟩
        · rw [hns']
          simp
        · intro x hx
          rcases List.mem_cons.mp hx with hx | hx
          · rw [hx]
            exact ⟨hn0, hnN⟩
          · exact hrangeF x hx
        · intro x hx
          rcases List.mem_cons.mp hx with hx | hx
          · rw [hx]
            exact hnotin
          · intro hc
            exact hfreshF x hx (List.mem_append_left _ hc)
        · rw [List.nodup_cons]
          refine ⟨?_, hndF⟩
          intro hc
          exact hfreshF n hc (List.mem_append_right _ (by simp))
        · intro x hx c hc
          rcases List.mem_cons.mp hx with hx | hx
          · exact ⟨[n], newF, rfl, by rw [hx]; simp, hcsin c (hx ▸ hc)⟩
          · obtain ⟨a, b, hab, hxa, hcb⟩ := hcloseF x hx c hc
            exact ⟨n :: a, b, by rw [hab]; rfl, List.mem_cons_of_mem n hxa, hcb⟩
        · intro x hx
          rcases List.mem_cons.mp hx with hx | hx
          · exact Or.inl hx
          · rcases hparF x hx with hxc | ⟨y, a, b, hab, hya, hxb, hxy⟩
            · exact Or.inr ⟨n, [n], newF, rfl, by simp, hx, hxc⟩
            · exact Or.inr ⟨y, n :: a, b, by rw [hab]; rfl,
                List.mem_cons_of_mem n hya, hxb, hxy⟩
        · rw [childConcat_cons, List.length_cons, List.length_append, hcountF]
          omega
    · intro cs ns visited ns' visited' h hlen hinv hcs
      cases cs with
      | nil =>
        rw [dfsForest] at h
        simp only [Except.ok.injEq, Prod.mk.injEq] at h
        obtain ⟨h1, h2⟩ := h
        subst h1
        subst h2
        refine ⟨[], by simp, hlen, hinv, by simp, by simp, by simp, by simp,
          by simp, by simp, by simp [childConcat_nil]⟩
      | cons c cs' =>
        rw [dfsForest] at h
        split at h
        · simp at h
        · rename_i ns1 visited1 heqT
          have hc0 := hcs c (by simp)
          obtain ⟨newT, hns1, hlenT, hinvT, hheadT, hrangeT, hfreshT, hndT, hcloseT,
            hparT, hcountT⟩ := ihT c ns visited ns1 visited1 heqT hlen hinv hc0.1 hc0.2
          obtain ⟨newR, hns'e, hlenR, hinvR, hcsinR, hrangeR, hfreshR, hndR,
            hcloseR, hparR, hcountR⟩ := ihF cs' ns1 visited1 ns' visited' h hlenT hinvT
              (fun c2 hc2 => hcs c2 (List.mem_cons_of_mem c hc2))
          have hdisj : ∀ x ∈ newT, x ∉ newR := by
            intro x hxT hxR
            exact hfreshR x hxR (by rw [hns1]; exact List.mem_append_right _ hxT)
          refine ⟨newT ++ newR, ?_, hlenR, hinvR, ?_, ?_, ?_, ?_, ?_, ?_, ?_⟩
          · rw [hns'e, hns1]
            simp
          · intro c2 hc2
            rcases List.mem_cons.mp hc2 with hc2 | hc2
            · obtain ⟨r, hr⟩ := hheadT
              refine List.mem_append_left _ ?_
              rw [hr, hc2]
              simp
            · exact List.mem_append_right _ (hcsinR c2 hc2)
          · intro x hx
            rcases List.mem_append.mp hx with hx | hx
            · exact hrangeT x hx
            · exact hrangeR x hx
          · intro x hx
            rcases List.mem_append.mp hx with hx | hx
            · exact hfreshT x hx
            · intro hc2
              exact hfreshR x hx (by rw [hns1]; exact List.mem_append_left _ hc2)
          · rw [List.nodup_append]
            exact ⟨hndT, hndR, fun x hxT => hdisj x hxT⟩
          · intro x hx c2 hc2
            rcases List.mem_append.mp hx with hx | hx
            · obtain ⟨a, b, hab, hxa, hcb⟩ := hcloseT x hx c2 hc2
              exact ⟨a, b ++ newR, by rw [hab]; simp, hxa, List.mem_append_left _ hcb⟩
            · obtain ⟨a, b, hab, hxa, hcb⟩ := hcloseR x hx c2 hc2
              exact ⟨newT ++ a, b, by rw [hab]; simp, List.mem_append_right _ hxa, hcb⟩
          · intro x hx
            rcases List.mem_append.mp hx with hx | hx
            · rcases hparT x hx with hxc | ⟨y, a, b, hab, hya, hxb, hxy⟩
              · refine Or.inl ?_
                rw [hxc]
                simp
              · exact Or.inr ⟨y, a, b ++ newR, by rw [hab]; simp, hya,
                  List.mem_append_left _ hxb, hxy⟩
            · rcases hparR x hx with hxc | ⟨y, a, b, hab, hya, hxb, hxy⟩
              · exact Or.inl (List.mem_cons_of_mem c hxc)
              · exact Or.inr ⟨y, newT ++ a, b, by rw [hab]; simp,
                  List.mem_append_right _ hya, hxb, hxy⟩
          · rw [childConcat_append, List.length_append, List.length_append,
              List.length_cons, hcountT, hcountR]
            omega

theorem getD_set_self' (l : List α) (i : Nat) (v d : α) (h : i < l.length) :
    (l.set i v).getD i d = v := by
  rw [List.getD_eq_getElem?_getD, List.getElem?_set_self]
  · simp
  · exact h

theorem getD_set_ne' (l : List α) (i j : Nat) (v d : α) (h : i ≠ j) :
    (l.set i v).getD j d = l.getD j d := by
  rw [List.getD_eq_getElem?_getD, List.getElem?_set_ne h, ← List.getD_eq_getElem?_getD]

theorem buildFold_length (T : List NodeId) (m : Nat) (acc : List NodeId) :
    ((List.range m).foldl
      (fun a i => a.set ((T.getD i NoNodeId).toNat) (i : Int)) acc).length
      = acc.length := by
  induction m with
  | zero => rfl
  | succ m ih =>
    rw [List.range_succ, List.foldl_append, List.foldl_cons, List.foldl_nil,
      List.length_set, ih]

theorem buildFold_miss (T : List NodeId) (acc : List NodeId) (o : Nat) (m : Nat)
    (hmiss : ∀ j, j < m → (T.getD j NoNodeId).toNat ≠ o) :
    ((List.range m).foldl
      (fun a i => a.set ((T.getD i NoNodeId).toNat) (i : Int)) acc).getD o NoNodeId
      = acc.getD o NoNodeId := by
  induction m with
  | zero => rfl
  | succ m ih =>
    rw [List.range_succ, List.foldl_append, List.foldl_cons, List.foldl_nil]
    rw [getD_set_ne' _ _ _ _ _ (hmiss m (by omega))]
    exact ih (fun j hj => hmiss j (by omega))

theorem buildFold_hit (T : List NodeId) (acc : List NodeId) (m j : Nat)
    (hj : j < m)
    (hlast : ∀ j', j < j' → j' < m →
      (T.getD j' NoNodeId).toNat ≠ (T.getD j NoNodeId).toNat)
    (hlen : (T.getD j NoNodeId).toNat < acc.length) :
    ((List.range m).foldl
      (fun a i => a.set ((T.getD i NoNodeId).toNat) (i : Int)) acc).getD
        ((T.getD j NoNodeId).toNat) NoNodeId
      = (j : Int) := by
  induction m with
  | zero => omega
  | succ m ih =>
    rw [List.range_succ, List.foldl_append, List.foldl_cons, List.foldl_nil]
    by_cases hjm : j = m
    · subst hjm
      rw [getD_set_self' _ _ _ _ (by rw [buildFold_length]; exact hlen)]
    · have hj' : j < m := by omega
      rw [getD_set_ne' _ _ _ _ _ (hlast m hj' (by omega))]
      exact ih hj' (fun j' h1 h2 => hlast j' h1 (by omega))

theorem getD_mem' (l : List α) (j : Nat) (d : α) (hj : j < l.length) :
    l.getD j d ∈ l := by
  rw [List.getD_eq_getElem _ _ hj]
  exact List.getElem_mem hj

theorem buildOldToNew_length (N : Nat) (T : List NodeId) :
    (buildOldToNew N T).length = N := by
  rw [buildOldToNew, buildFold_length, List.length_replicate]

theorem buildOldToNew_mem (N : Nat) (T : List NodeId) (hnd : T.Nodup)
    (hpos : ∀ y ∈ T, 0 ≤ y) (x : NodeId) (hx : x ∈ T) (hxN : x.toNat < N) :
    (buildOldToNew N T).getD x.toNat NoNodeId = (idxI T x : Int) := by
  have hj := idxI_lt_length T x hx
  have hTj : T.getD (idxI T x) NoNodeId = x := by
    rw [List.getD_eq_getElem _ _ hj]
    have hh := getD_idxI T x hx
    rwa [List.getD_eq_getElem _ _ hj] at hh
  have hres := buildFold_hit T (List.replicate N NoNodeId) T.length (idxI T x) hj
    (by
      intro j' h1 h2 hc
      have hmem : T.getD j' NoNodeId ∈ T := getD_mem' T j' NoNodeId h2
      have hge : 0 ≤ T.getD j' NoNodeId := hpos _ hmem
      have hgex : 0 ≤ x := hpos x hx
      have hvals : T.getD j' NoNodeId = x := by
        rw [hTj] at hc
        rw [← Int.toNat_of_nonneg hge, ← Int.toNat_of_nonneg hgex, hc]
      rw [List.getD_eq_getElem _ _ h2] at hvals
      rw [List.getD_eq_getElem _ _ hj] at hTj
      rw [← hTj] at hvals
      have := (List.Nodup.getElem_inj_iff hnd).mp hvals
      omega)
    (by rw [hTj, List.length_replicate]; exact hxN)
  rw [hTj] at hres
  rw [buildOldToNew]
  exact hres

theorem buildOldToNew_not_mem (N : Nat) (T : List NodeId) (hpos : ∀ y ∈ T, 0 ≤ y)
    (o : Nat) (ho : o < N) (hno : (o : Int) ∉ T) :
    (buildOldToNew N T).getD o NoNodeId = NoNodeId := by
  rw [buildOldToNew, buildFold_miss]
  · rw [List.getD_eq_getElem _ _ (by simpa using ho)]
    simp
  · intro j hj hc
    have hmem : T.getD j NoNodeId ∈ T := getD_mem' T j NoNodeId hj
    have hge : 0 ≤ T.getD j NoNodeId := hpos _ hmem
    have hval : T.getD j NoNodeId = (o : Int) := by
      rw [← Int.toNat_of_nonneg hge, hc]
    rw [hval] at hmem
    exact hno hmem

theorem getD_default_irrel (l : List α) (i : Nat) (d1 d2 : α) (h : i < l.length) :
    l.getD i d1 = l.getD i d2 := by
  rw [List.getD_eq_getElem _ _ h, List.getD_eq_getElem _ _ h]

theorem int_eq_iff_toNat {a b : Int} (ha : 0 ≤ a) (hb : 0 ≤ b) :
    a = b ↔ a.toNat = b.toNat := by
  constructor
  · intro h
    rw [h]
  · intro h
    rw [← Int.toNat_of_nonneg ha, ← Int.toNat_of_nonneg hb, h]

theorem findRootUF_spec (p : List NodeId) (k : Nat) (hwf : WFuf k p) :
    ∀ x : Nat, x < k → ∀ fuel : Nat, x < fuel →
      ∃ r : Nat, findRootUF fuel p (x : Int) = (r : Int)
        ∧ r ≤ x ∧ r < k ∧ p.getD r 0 = (r : Int) := by
  intro x
  induction x using Nat.strong_induction_on with
  | _ x ih =>
    intro hx fuel hfuel
    match fuel, hfuel with
    | fuel + 1, hfuel =>
      rw [findRootUF]
      have htn : ((x : Int)).toNat = x := Int.toNat_natCast x
      have hdef : p.getD x ((x : Nat) : Int) = p.getD x 0 :=
        getD_default_irrel _ _ _ _ (by rw [hwf.1]; exact hx)
      obtain ⟨h0, h1⟩ := hwf.2 x hx
      by_cases heq : p.getD x 0 = ((x : Nat) : Int)
      · rw [htn, hdef, if_pos heq]
        exact ⟨x, rfl, Nat.le_refl x, hx, heq⟩
      · have hyle : (p.getD x 0).toNat ≤ x := by
          have := Int.toNat_le_toNat h1
          rwa [htn] at this
        have hyne : (p.getD x 0).toNat ≠ x := by
          intro hc
          apply heq
          rw [← Int.toNat_of_nonneg h0, hc]
        have hlt : (p.getD x 0).toNat < x := Nat.lt_of_le_of_ne hyle hyne
        have hyv : p.getD x 0 = (((p.getD x 0).toNat : Nat) : Int) :=
          (Int.toNat_of_nonneg h0).symm
        rw [htn, hdef, if_neg heq]
        obtain ⟨r, hr, hr1, hr2, hr3⟩ := ih (p.getD x 0).toNat hlt
          (Nat.lt_trans hlt hx) fuel
          (Nat.lt_of_lt_of_le hlt (Nat.lt_succ_iff.mp hfuel))
        refine ⟨r, ?_, Nat.le_trans hr1 (Nat.le_of_lt hlt), hr2, hr3⟩
        rw [hyv] at hr ⊢
        exact hr

theorem findRootUF_fuel_irrel (p : List NodeId) (k : Nat) (hwf : WFuf k p) :
    ∀ x : Nat, x < k → ∀ f1 f2 : Nat, x < f1 → x < f2 →
      findRootUF f1 p (x : Int) = findRootUF f2 p (x : Int) := by
  intro x
  induction x using Nat.strong_induction_on with
  | _ x ih =>
    intro hx f1 f2 hf1 hf2
    match f1, hf1, f2, hf2 with
    | f1 + 1, hf1, f2 + 1, hf2 =>
      rw [findRootUF, findRootUF]
      have htn : ((x : Int)).toNat = x := Int.toNat_natCast x
      have hdef : p.getD x ((x : Nat) : Int) = p.getD x 0 :=
        getD_default_irrel _ _ _ _ (by rw [hwf.1]; exact hx)
      obtain ⟨h0, h1⟩ := hwf.2 x hx
      by_cases heq : p.getD x 0 = ((x : Nat) : Int)
      · rw [htn, hdef, if_pos heq, if_pos heq]
      · have hyle : (p.getD x 0).toNat ≤ x := by
          have := Int.toNat_le_toNat h1
          rwa [htn] at this
        have hyne : (p.getD x 0).toNat ≠ x := by
          intro hc
          apply heq
          rw [← Int.toNat_of_nonneg h0, hc]
        have hlt : (p.getD x 0).toNat < x := Nat.lt_of_le_of_ne hyle hyne
        have hyv : p.getD x 0 = (((p.getD x 0).toNat : Nat) : Int) :=
          (Int.toNat_of_nonneg h0).symm
        rw [htn, hdef, if_neg heq, if_neg heq]
        rw [hyv]
        exact ih (p.getD x 0).toNat hlt (Nat.lt_trans hlt hx) f1 f2
          (Nat.lt_of_lt_of_le hlt (Nat.lt_succ_iff.mp hf1))
          (Nat.lt_of_lt_of_le hlt (Nat.lt_succ_iff.mp hf2))

theorem rootOf_fix (p : List NodeId) (k : Nat) (hwf : WFuf k p) (x : Nat) (hx : x < k)
    (h : p.getD x 0 = ((x : Nat) : Int)) : rootOf p (x : Int) = ((x : Nat) : Int) := by
  rw [rootOf]
  obtain ⟨r, hr, _, _, _⟩ := findRootUF_spec p k hwf x hx (p.length + 1)
    (by rw [hwf.1]; omega)
  rw [findRootUF]
  have htn : ((x : Int)).toNat = x := Int.toNat_natCast x
  have hdef : p.getD x ((x : Nat) : Int) = p.getD x 0 :=
    getD_default_irrel _ _ _ _ (by rw [hwf.1]; exact hx)
  rw [htn, hdef, if_pos h]

theorem rootOf_step (p : List NodeId) (k : Nat) (hwf : WFuf k p) (x : Nat) (hx : x < k)
    (h : p.getD x 0 ≠ ((x : Nat) : Int)) :
    rootOf p (x : Int) = rootOf p (((p.getD x 0).toNat : Nat) : Int) := by
  obtain ⟨h0, h1⟩ := hwf.2 x hx
  have htn : ((x : Int)).toNat = x := Int.toNat_natCast x
  have hdef : p.getD x ((x : Nat) : Int) = p.getD x 0 :=
    getD_default_irrel _ _ _ _ (by rw [hwf.1]; exact hx)
  have hyle : (p.getD x 0).toNat ≤ x := by
    have := Int.toNat_le_toNat h1
    rwa [htn] at this
  have hyne : (p.getD x 0).toNat ≠ x := by
    intro hc
    apply h
    rw [← Int.toNat_of_nonneg h0, hc]
  have hlt : (p.getD x 0).toNat < x := Nat.lt_of_le_of_ne hyle hyne
  have hyv : p.getD x 0 = (((p.getD x 0).toNat : Nat) : Int) :=
    (Int.toNat_of_nonneg h0).symm
  rw [rootOf, rootOf]
  have hlen : x < p.length := by rw [hwf.1]; exact hx
  rw [show p.length + 1 = (p.length) + 1 from rfl]
  rw [findRootUF]
  rw [htn, hdef, if_neg h]
  rw [hyv]
  exact findRootUF_fuel_irrel p k hwf (p.getD x 0).toNat (Nat.lt_trans hlt hx)
    p.length (p.length + 1) (by omega) (by omega)

theorem rootOf_spec (p : List NodeId) (k : Nat) (hwf : WFuf k p) (x : Nat) (hx : x < k) :
    ∃ r : Nat, rootOf p (x : Int) = (r : Int)
      ∧ r ≤ x ∧ r < k ∧ p.getD r 0 = (r : Int) := by
  rw [rootOf]
  exact findRootUF_spec p k hwf x hx (p.length + 1) (by rw [hwf.1]; omega)

theorem set_nonfix_preserves (p : List NodeId) (k : Nat) (hwf : WFuf k p)
    (x r : Nat) (hx : x < k) (hnf : p.getD x 0 ≠ ((x : Nat) : Int))
    (hr : rootOf p (x : Int) = ((r : Nat) : Int)) :
    WFuf k (p.set x ((r : Nat) : Int))
    ∧ (∀ y : Nat, y < k →
        rootOf (p.set x ((r : Nat) : Int)) (y : Int) = rootOf p (y : Int))
    ∧ (∀ y : Nat, y < k → p.getD y 0 = ((y : Nat) : Int) →
        (p.set x ((r : Nat) : Int)).getD y 0 = ((y : Nat) : Int)) := by
  obtain ⟨r', hr', hr'le, hr'k, hr'fix⟩ := rootOf_spec p k hwf x hx
  have hrr : r = r' := by
    rw [hr] at hr'
    exact_mod_cast hr'
  subst hrr
  have hrx : r ≠ x := by
    intro hc
    subst hc
    exact hnf hr'fix
  have hxlen : x < p.length := by rw [hwf.1]; exact hx
  have hqwf : WFuf k (p.set x ((r : Nat) : Int)) := by
    refine ⟨by rw [List.length_set]; exact hwf.1, ?_⟩
    intro y hy
    by_cases hyx : y = x
    · subst hyx
      rw [getD_set_self' _ _ _ _ hxlen]
      constructor
      · exact_mod_cast Nat.zero_le r
      · exact_mod_cast hr'le
    · rw [getD_set_ne' _ _ _ _ _ (fun hc => hyx hc.symm)]
      exact hwf.2 y hy
  have hfixp : ∀ y : Nat, y < k → p.getD y 0 = ((y : Nat) : Int) →
      (p.set x ((r : Nat) : Int)).getD y 0 = ((y : Nat) : Int) := by
    intro y hy hfy
    by_cases hyx : y = x
    · subst hyx
      exact absurd hfy hnf
    · rw [getD_set_ne' _ _ _ _ _ (fun hc => hyx hc.symm)]
      exact hfy
  refine ⟨hqwf, ?_, hfixp⟩
  intro y
  induction y using Nat.strong_induction_on with
  | _ y ih =>
    intro hy
    by_cases hyx : y = x
    · subst hyx
      have hq1 : (p.set y ((r : Nat) : Int)).getD y 0 = ((r : Nat) : Int) :=
        getD_set_self' _ _ _ _ hxlen
      have hqr : (p.set y ((r : Nat) : Int)).getD r 0 = ((r : Nat) : Int) := by
        rw [getD_set_ne' _ _ _ _ _ (fun hc => hrx hc.symm)]
        exact hr'fix
      have hstep := rootOf_step (p.set y ((r : Nat) : Int)) k hqwf y hy
        (by rw [hq1]; intro hc; exact hrx (by exact_mod_cast hc))
      rw [hq1, Int.toNat_natCast] at hstep
      rw [hstep, rootOf_fix _ k hqwf r hr'k hqr, hr]
    · have hq1 : (p.set x ((r : Nat) : Int)).getD y 0 = p.getD y 0 :=
        getD_set_ne' _ _ _ _ _ (fun hc => hyx hc.symm)
      by_cases hfy : p.getD y 0 = ((y : Nat) : Int)
      · rw [rootOf_fix _ k hqwf y hy (by rw [hq1]; exact hfy),
          rootOf_fix _ k hwf y hy hfy]
      · obtain ⟨h0, h1⟩ := hwf.2 y hy
        have hzlt : (p.getD y 0).toNat < y := by
          have hle := Int.toNat_le_toNat h1
          rw [Int.toNat_natCast] at hle
          refine Nat.lt_of_le_of_ne hle ?_
          intro hc
          apply hfy
          rw [← Int.toNat_of_nonneg h0, hc]
        have hstep1 := rootOf_step (p.set x ((r : Nat) : Int)) k hqwf y hy
          (by rw [hq1]; exact hfy)
        have hstep2 := rootOf_step p k hwf y hy hfy
        rw [hq1] at hstep1
        rw [hstep1, hstep2]
        exact ih (p.getD y 0).toNat hzlt (Nat.lt_trans hzlt hy)

theorem set_root_formula (p : List NodeId) (k : Nat) (hwf : WFuf k p)
    (a b : Nat) (ha : a < k) (hb : b < k) (hab : a ≤ b)
    (hfa : p.getD a 0 = ((a : Nat) : Int)) (hfb : p.getD b 0 = ((b : Nat) : Int)) :
    WFuf k (p.set b ((a : Nat) : Int))
    ∧ (∀ y : Nat, y < k → rootOf (p.set b ((a : Nat) : Int)) (y : Int)
        = (if rootOf p (y : Int) = ((b : Nat) : Int) then ((a : Nat) : Int)
            else rootOf p (y : Int)))
    ∧ (∀ y : Nat, y < k → y ≠ b → p.getD y 0 = ((y : Nat) : Int) →
        (p.set b ((a : Nat) : Int)).getD y 0 = ((y : Nat) : Int)) := by
  have hblen : b < p.length := by rw [hwf.1]; exact hb
  have hqwf : WFuf k (p.set b ((a : Nat) : Int)) := by
    refine ⟨by rw [List.length_set]; exact hwf.1, ?_⟩
    intro y hy
    by_cases hyb : y = b
    · subst hyb
      rw [getD_set_self' _ _ _ _ hblen]
      constructor
      · exact_mod_cast Nat.zero_le a
      · exact_mod_cast hab
    · rw [getD_set_ne' _ _ _ _ _ (fun hc => hyb hc.symm)]
      exact hwf.2 y hy
  have hfixp : ∀ y : Nat, y < k → y ≠ b → p.getD y 0 = ((y : Nat) : Int) →
      (p.set b ((a : Nat) : Int)).getD y 0 = ((y : Nat) : Int) := by
    intro y hy hyb hfy
    rw [getD_set_ne' _ _ _ _ _ (fun hc => hyb hc.symm)]
    exact hfy
  refine ⟨hqwf, ?_, hfixp⟩
  intro y
  induction y using Nat.strong_induction_on with
  | _ y ih =>
    intro hy
    by_cases hyb : y = b
    · subst hyb
      have hq1 : (p.set y ((a : Nat) : Int)).getD y 0 = ((a : Nat) : Int) :=
        getD_set_self' _ _ _ _ hblen
      rw [rootOf_fix p k hwf y hy hfb, if_pos rfl]
      by_cases hab' : a = y
      · subst hab'
        rw [rootOf_fix _ k hqwf a hy (by rw [hq1])]
      · have hqa : (p.set y ((a : Nat) : Int)).getD a 0 = ((a : Nat) : Int) := by
          rw [getD_set_ne' _ _ _ _ _ (fun hc => hab' hc.symm)]
          exact hfa
        have hstep := rootOf_step (p.set y ((a : Nat) : Int)) k hqwf y hy
          (by rw [hq1]; intro hc; exact hab' (by exact_mod_cast hc))
        rw [hq1, Int.toNat_natCast] at hstep
        rw [hstep, rootOf_fix _ k hqwf a ha hqa]
    · have hq1 : (p.set b ((a : Nat) : Int)).getD y 0 = p.getD y 0 :=
        getD_set_ne' _ _ _ _ _ (fun hc => hyb hc.symm)
      by_cases hfy : p.getD y 0 = ((y : Nat) : Int)
      · rw [rootOf_fix _ k hqwf y hy (by rw [hq1]; exact hfy),
          rootOf_fix _ k hwf y hy hfy]
        rw [if_neg (by intro hc; exact hyb (by exact_mod_cast hc))]
      · obtain ⟨h0, h1⟩ := hwf.2 y hy
        have hzlt : (p.getD y 0).toNat < y := by
          have hle := Int.toNat_le_toNat h1
          rw [Int.toNat_natCast] at hle
          refine Nat.lt_of_le_of_ne hle ?_
          intro hc
          apply hfy
          rw [← Int.toNat_of_nonneg h0, hc]
        have hstep1 := rootOf_step (p.set b ((a : Nat) : Int)) k hqwf y hy
          (by rw [hq1]; exact hfy)
        have hstep2 := rootOf_step p k hwf y hy hfy
        rw [hq1] at hstep1
        rw [hstep1, hstep2]
        exact ih (p.getD y 0).toNat hzlt (Nat.lt_trans hzlt hy)

theorem compressUF_spec (k : Nat) :
    ∀ (x : Nat) (p : List NodeId), WFuf k p → x < k →
    ∀ (fuel : Nat) (r : Nat), rootOf p (x : Int) = ((r : Nat) : Int) →
    WFuf k (compressUF fuel p (x : Int) ((r : Nat) : Int))
    ∧ (∀ y : Nat, y < k →
        rootOf (compressUF fuel p (x : Int) ((r : Nat) : Int)) (y : Int)
          = rootOf p (y : Int))
    ∧ (∀ y : Nat, y < k → p.getD y 0 = ((y : Nat) : Int) →
        (compressUF fuel p (x : Int) ((r : Nat) : Int)).getD y 0 = ((y : Nat) : Int)) := by
  intro x
  induction x using Nat.strong_induction_on with
  | _ x ih =>
    intro p hwf hx fuel r hr
    cases fuel with
    | zero =>
      rw [compressUF]
      exact ⟨hwf, fun y hy => rfl, fun y hy h => h⟩
    | succ fuel =>
      rw [compressUF]
      by_cases hxr : ((x : Nat) : Int) = ((r : Nat) : Int)
      · rw [if_pos hxr]
        exact ⟨hwf, fun y hy => rfl, fun y hy h => h⟩
      · rw [if_neg hxr]
        have hnf : p.getD x 0 ≠ ((x : Nat) : Int) := by
          intro hc
          apply hxr
          rw [← rootOf_fix p k hwf x hx hc, hr]
        obtain ⟨h0, h1⟩ := hwf.2 x hx
        have hzlt : (p.getD x 0).toNat < x := by
          have hle := Int.toNat_le_toNat h1
          rw [Int.toNat_natCast] at hle
          refine Nat.lt_of_le_of_ne hle ?_
          intro hc
          apply hnf
          rw [← Int.toNat_of_nonneg h0, hc]
        have hdef : p.getD ((x : Int)).toNat ((x : Nat) : Int) = p.getD x 0 := by
          rw [Int.toNat_natCast]
          exact getD_default_irrel _ _ _ _ (by rw [hwf.1]; exact hx)
        have hset : p.set ((x : Int)).toNat ((r : Nat) : Int)
            = p.set x ((r : Nat) : Int) := by
          rw [Int.toNat_natCast]
        obtain ⟨hq1wf, hq1root, hq1fix⟩ :=
          set_nonfix_preserves p k hwf x r hx hnf hr
        have hzval : p.getD x 0 = (((p.getD x 0).toNat : Nat) : Int) :=
          (Int.toNat_of_nonneg h0).symm
        have hzk : (p.getD x 0).toNat < k := Nat.lt_trans hzlt hx
        have hq1r : rootOf (p.set x ((r : Nat) : Int))
            (((p.getD x 0).toNat : Nat) : Int) = ((r : Nat) : Int) := by
          rw [hq1root (p.getD x 0).toNat hzk]
          rw [← rootOf_step p k hwf x hx hnf]
          exact hr
        obtain ⟨hqwf2, hroot2, hfix2⟩ := ih (p.getD x 0).toNat hzlt
          (p.set x ((r : Nat) : Int)) hq1wf hzk fuel r hq1r
        rw [hset, hdef, hzval]
        refine ⟨hqwf2, ?_, ?_⟩
        · intro y hy
          rw [hroot2 y hy, hq1root y hy]
        · intro y hy hfy
          exact hfix2 y hy (hq1fix y hy hfy)

theorem findUF_spec (p : List NodeId) (k : Nat) (hwf : WFuf k p) (x : Nat) (hx : x < k) :
    (findUF p (x : Int)).1 = rootOf p (x : Int)
    ∧ WFuf k (findUF p (x : Int)).2
    ∧ (∀ y : Nat, y < k →
        rootOf (findUF p (x : Int)).2 (y : Int) = rootOf p (y : Int))
    ∧ (∀ y : Nat, y < k → p.getD y 0 = ((y : Nat) : Int) →
        (findUF p (x : Int)).2.getD y 0 = ((y : Nat) : Int)) := by
  obtain ⟨r, hr, _, _, _⟩ := rootOf_spec p k hwf x hx
  have hfind : findUF p (x : Int)
      = (rootOf p (x : Int), compressUF (p.length + 1) p (x : Int) (rootOf p (x : Int))) :=
    rfl
  rw [hfind, hr]
  obtain ⟨hcwf, hcroot, hcfix⟩ := compressUF_spec k x p hwf hx (p.length + 1) r hr
  exact ⟨rfl, hcwf, hcroot, hcfix⟩

theorem unionUF_spec (p : List NodeId) (k : Nat) (hwf : WFuf k p)
    (i j : Nat) (hi : i < k) (hj : j < k) (hij : i < j)
    (hfixj : p.getD j 0 = ((j : Nat) : Int)) :
    WFuf k (unionUF (i : Int) (j : Int) p)
    ∧ (∀ x : Nat, x < k → rootOf (unionUF (i : Int) (j : Int) p) (x : Int)
        = (if rootOf p (x : Int) = ((j : Nat) : Int) then rootOf p (i : Int)
            else rootOf p (x : Int)))
    ∧ (∀ y : Nat, y < k → y ≠ j → p.getD y 0 = ((y : Nat) : Int) →
        (unionUF (i : Int) (j : Int) p).getD y 0 = ((y : Nat) : Int)) := by
  obtain ⟨hf1a, hf1wf, hf1root, hf1fix⟩ := findUF_spec p k hwf i hi
  obtain ⟨ra, hra, hrale, hrak, hrafix⟩ := rootOf_spec p k hwf i hi
  obtain ⟨hf2a, hf2wf, hf2root, hf2fix⟩ :=
    findUF_spec (findUF p (i : Int)).2 k hf1wf j hj
  have hbj : (findUF (findUF p (i : Int)).2 (j : Int)).1 = ((j : Nat) : Int) := by
    rw [hf2a, hf1root j hj]
    exact rootOf_fix p k hwf j hj hfixj
  have hu : unionUF (i : Int) (j : Int) p
      = (findUF (findUF p (i : Int)).2 (j : Int)).2.set
          ((findUF (findUF p (i : Int)).2 (j : Int)).1).toNat
          (findUF p (i : Int)).1 := rfl
  have hfixj2 : (findUF (findUF p (i : Int)).2 (j : Int)).2.getD j 0
      = ((j : Nat) : Int) :=
    hf2fix j hj (hf1fix j hj hfixj)
  have hfixra2 : (findUF (findUF p (i : Int)).2 (j : Int)).2.getD ra 0
      = ((ra : Nat) : Int) :=
    hf2fix ra hrak (hf1fix ra hrak hrafix)
  obtain ⟨hswf, hsroot, hsfix⟩ := set_root_formula
    (findUF (findUF p (i : Int)).2 (j : Int)).2 k hf2wf ra j hrak hj
    (by omega) hfixra2 hfixj2
  have hq : unionUF (i : Int) (j : Int) p
      = (findUF (findUF p (i : Int)).2 (j : Int)).2.set j ((ra : Nat) : Int) := by
    rw [hu, hbj, hf1a, hra, Int.toNat_natCast]
  refine ⟨?_, ?_, ?_⟩
  · rw [hq]
    exact hswf
  · intro x hx
    rw [hq, hsroot x hx, hf2root x hx, hf1root x hx, hra]
  · intro y hy hyj hfy
    rw [hq]
    exact hsfix y hy hyj (hf2fix y hy (hf1fix y hy hfy))

theorem unionFold_spec (k : Nat) :
    ∀ (E : List (NodeId × NodeId)) (p : List NodeId),
    WFuf k p →
    (∀ e ∈ E, ∃ i j : Nat, e = ((i : Int), (j : Int)) ∧ i < j ∧ j < k) →
    (E.map Prod.snd).Nodup →
    (∀ e ∈ E, p.getD e.2.toNat 0 = e.2) →
    WFuf k (E.foldl (fun p e => unionUF e.1 e.2 p) p)
    ∧ (∀ x y : Nat, x < k → y < k →
        rootOf p (x : Int) = rootOf p (y : Int) →
        rootOf (E.foldl (fun p e => unionUF e.1 e.2 p) p) (x : Int)
          = rootOf (E.foldl (fun p e => unionUF e.1 e.2 p) p) (y : Int))
    ∧ (∀ e ∈ E, ∀ i j : Nat, e = ((i : Int), (j : Int)) →
        rootOf (E.foldl (fun p e => unionUF e.1 e.2 p) p) (i : Int)
          = rootOf (E.foldl (fun p e => unionUF e.1 e.2 p) p) (j : Int)) := by
  intro E
  induction E with
  | nil =>
    intro p hwf _ _ _
    exact ⟨hwf, fun x y hx hy h => h, fun e he => absurd he (by simp)⟩
  | cons e E' ih =>
    intro p hwf hshape hnd hfix
    obtain ⟨i, j, heij, hij, hjk⟩ := hshape e (by simp)
    have hik : i < k := Nat.lt_trans hij hjk
    have hfj : p.getD j 0 = ((j : Nat) : Int) := by
      have := hfix e (by simp)
      rw [heij] at this
      simpa [Int.toNat_natCast] using this
    obtain ⟨huwf, huroot, hufix⟩ := unionUF_spec p k hwf i j hik hjk hij hfj
    have hstep : (e :: E').foldl (fun p e => unionUF e.1 e.2 p) p
        = E'.foldl (fun p e => unionUF e.1 e.2 p) (unionUF (i : Int) (j : Int) p) := by
      rw [List.foldl_cons, heij]
    have hndE' : (E'.map Prod.snd).Nodup := (List.nodup_cons.mp hnd).2
    have hjnot : ((j : Nat) : Int) ∉ E'.map Prod.snd := by
      have := (List.nodup_cons.mp hnd).1
      rwa [heij] at this
    have hfix' : ∀ e2 ∈ E', (unionUF (i : Int) (j : Int) p).getD e2.2.toNat 0 = e2.2 := by
      intro e2 he2
      obtain ⟨i2, j2, he2ij, hij2, hj2k⟩ := hshape e2 (List.mem_cons_of_mem e he2)
      have hj2ne : j2 ≠ j := by
        intro hc
        apply hjnot
        rw [← hc, ← show e2.2 = ((j2 : Nat) : Int) by rw [he2ij]]
        exact List.mem_map_of_mem Prod.snd he2
      have hfx := hfix e2 (List.mem_cons_of_mem e he2)
      rw [he2ij]
      rw [he2ij] at hfx
      simp only [Int.toNat_natCast] at hfx ⊢
      exact hufix j2 hj2k hj2ne hfx
    obtain ⟨hfwf, hfmono, hfconn⟩ := ih (unionUF (i : Int) (j : Int) p) huwf
      (fun e2 he2 => hshape e2 (List.mem_cons_of_mem e he2)) hndE' hfix'
    have hmono1 : ∀ x y : Nat, x < k → y < k →
        rootOf p (x : Int) = rootOf p (y : Int) →
        rootOf (unionUF (i : Int) (j : Int) p) (x : Int)
          = rootOf (unionUF (i : Int) (j : Int) p) (y : Int) := by
      intro x y hx hy h
      rw [huroot x hx, huroot y hy, h]
    refine ⟨by rw [hstep]; exact hfwf, ?_, ?_⟩
    · intro x y hx hy h
      rw [hstep]
      exact hfmono x y hx hy (hmono1 x y hx hy h)
    · intro e2 he2 i2 j2 he2ij
      rcases List.mem_cons.mp he2 with he2 | he2
      · have hii : i2 = i ∧ j2 = j := by
          rw [he2ij] at he2
          rw [heij] at he2
          simp only [Prod.mk.injEq] at he2
          constructor
          · exact_mod_cast he2.1
          · exact_mod_cast he2.2
        obtain ⟨hii1, hii2⟩ := hii
        subst hii1
        subst hii2
        rw [hstep]
        refine hfmono i2 j2 hik hjk ?_
        have h1 : rootOf (unionUF (i2 : Int) (j2 : Int) p) (i2 : Int)
            = rootOf p (i2 : Int) := by
          rw [huroot i2 hik]
          obtain ⟨ra, hra, hrale, _, _⟩ := rootOf_spec p k hwf i2 hik
          rw [hra, if_neg ?_]
          intro hc
          have : ra = j2 := by exact_mod_cast hc
          omega
        have h2 : rootOf (unionUF (i2 : Int) (j2 : Int) p) (j2 : Int)
            = rootOf p (i2 : Int) := by
          rw [huroot j2 hjk]
          rw [rootOf_fix p k hwf j2 hjk hfj, if_pos rfl]
        rw [h1, h2]
      · rw [hstep]
        exact hfconn e2 he2 i2 j2 he2ij

theorem roots_zero (k : Nat) (q : List NodeId) (hwf : WFuf k q)
    (hconn : ∀ j : Nat, 1 ≤ j → j < k →
      ∃ i : Nat, i < j ∧ rootOf q (i : Int) = rootOf q (j : Int)) :
    ∀ x : Nat, x < k → rootOf q (x : Int) = ((0 : Nat) : Int) := by
  intro x
  induction x using Nat.strong_induction_on with
  | _ x ih =>
    intro hx
    cases Nat.eq_zero_or_pos x with
    | inl h0 =>
      subst h0
      obtain ⟨hz0, hz1⟩ := hwf.2 0 hx
      have hfx : q.getD 0 0 = ((0 : Nat) : Int) := le_antisymm hz1 hz0
      exact rootOf_fix q k hwf 0 hx hfx
    | inr hpos =>
      obtain ⟨i, hilt, hconn2⟩ := hconn x hpos hx
      rw [← hconn2]
      exact ih i hilt (Nat.lt_trans hilt hx)

theorem countFold_go (k : Nat) :
    ∀ (L : List NodeId) (p : List NodeId) (m0 : List (NodeId × List NodeId)),
    WFuf k p →
    (∀ x : Nat, x < k → rootOf p (x : Int) = ((0 : Nat) : Int)) →
    (∀ c ∈ L, ∃ i : Nat, c = ((i : Nat) : Int) ∧ i < k) →
    (m0 = [] ∨ ∃ l0, m0 = [(((0 : Nat) : Int), l0)]) →
    WFuf k (L.foldl
        (fun acc i =>
          let fc := findUF acc.2 i
          (assocAppend acc.1 fc.1 i, fc.2)) (m0, p)).2
    ∧ (∀ x : Nat, x < k → rootOf (L.foldl
        (fun acc i =>
          let fc := findUF acc.2 i
          (assocAppend acc.1 fc.1 i, fc.2)) (m0, p)).2 (x : Int) = ((0 : Nat) : Int))
    ∧ ((L.foldl
        (fun acc i =>
          let fc := findUF acc.2 i
          (assocAppend acc.1 fc.1 i, fc.2)) (m0, p)).1 = []
      ∨ ∃ l, (L.foldl
        (fun acc i =>
          let fc := findUF acc.2 i
          (assocAppend acc.1 fc.1 i, fc.2)) (m0, p)).1 = [(((0 : Nat) : Int), l)])
    ∧ (m0 ≠ [] → (L.foldl
        (fun acc i =>
          let fc := findUF acc.2 i
          (assocAppend acc.1 fc.1 i, fc.2)) (m0, p)).1 ≠ [])
    ∧ (L ≠ [] → (L.foldl
        (fun acc i =>
          let fc := findUF acc.2 i
          (assocAppend acc.1 fc.1 i, fc.2)) (m0, p)).1 ≠ []) := by
  intro L
  induction L with
  | nil =>
    intro p m0 hwf hroots _ hm0
    exact ⟨hwf, hroots, hm0, fun h => h, fun h => absurd rfl h⟩
  | cons c L' ih =>
    intro p m0 hwf hroots helems hm0
    obtain ⟨i, hci, hik⟩ := helems c (by simp)
    rw [List.foldl_cons]
    obtain ⟨hfa, hfwf, hfroot, _⟩ := findUF_spec p k hwf i hik
    have hfc1 : (findUF p c).1 = ((0 : Nat) : Int) := by
      rw [hci, hfa]
      exact hroots i hik
    have hm1 : assocAppend m0 (findUF p c).1 c = []
        ∨ ∃ l0, assocAppend m0 (findUF p c).1 c = [(((0 : Nat) : Int), l0)] := by
      rcases hm0 with hm0 | ⟨l0, hm0⟩
      · subst hm0
        rw [hfc1]
        refine Or.inr ⟨[c], ?_⟩
        rw [assocAppend]
        rfl
      · subst hm0
        rw [hfc1]
        refine Or.inr ⟨l0 ++ [c], ?_⟩
        rw [assocAppend]
        simp
    have hm1ne : assocAppend m0 (findUF p c).1 c ≠ [] := by
      rcases hm1 with hm1 | ⟨l0, hm1⟩
      · exfalso
        rcases hm0 with hm0 | ⟨l0, hm0⟩
        · subst hm0
          rw [hfc1] at hm1
          rw [assocAppend] at hm1
          simp at hm1
        · subst hm0
          rw [hfc1] at hm1
          rw [assocAppend] at hm1
          simp at hm1
      · rw [hm1]
        simp
    have hfroots : ∀ x : Nat, x < k →
        rootOf (findUF p c).2 (x : Int) = ((0 : Nat) : Int) := by
      intro x hx
      rw [hci, hfroot x hx]
      exact hroots x hx
    have hfwf2 : WFuf k (findUF p c).2 := by
      rw [hci]
      exact hfwf
    obtain ⟨c1, c2, c3, c4, c5⟩ := ih (findUF p c).2
      (assocAppend m0 (findUF p c).1 c) hfwf2 hfroots
      (fun c2 hc2 => helems c2 (List.mem_cons_of_mem c hc2)) hm1
    have hroot2 : ∀ x : Nat, x < k →
        rootOf (findUF p c).2 (x : Int) = ((0 : Nat) : Int) := hfroots
    refine ⟨c1, c2, c3, fun _ => c4 hm1ne, fun _ => c4 hm1ne⟩

theorem flatMap_pure_eq_map (l : List Nat) (f : Nat → Int) :
    (l.flatMap fun a => [f a]) = l.map f := by
  induction l with
  | nil => rfl
  | cons a l ih => simp [List.flatMap_cons, ih]

theorem getD_map_range (k x : Nat) (f : Nat → Int) (h : x < k) :
    ((List.range k).map f).getD x 0 = f x := by
  rw [List.getD_eq_getElem _ _ (by simp [h])]
  simp

theorem components_one (t : Topology) (k : Nat) (hk : t.NumNodes = k) (hpos : 1 ≤ k)
    (hedge : ∀ i : Nat, i < k → ∀ c ∈ t.Children.getD i [], (i : Int) < c ∧ c < (k : Int))
    (hnd : t.Children.flatten.Nodup)
    (hcover : ∀ j : Nat, 1 ≤ j → j < k →
      ∃ i : Nat, i < k ∧ ((j : Nat) : Int) ∈ t.Children.getD i []) :
    t.NumComponents = 1 := by
  have hlen : t.Children.length = k := hk
  have hcomp : t.Components =
      (((List.range t.NumNodes) >>= (fun a => pure ((a : Int)))).foldl
        (fun acc i =>
          let fc := findUF acc.2 i
          (assocAppend acc.1 fc.1 i, fc.2))
        ([], ((t.Children.enum.map
            (fun q => q.2.map (fun c => ((q.1 : Int), c)))).flatten).foldl
          (fun p e => unionUF e.1 e.2 p)
          (((List.range t.NumNodes) >>= (fun a => pure ((a : Int)))).map
            (fun i => i)))).1 := rfl
  rw [hk] at hcomp
  have hR : ((List.range k) >>= (fun a => pure ((a : Int))))
      = (List.range k).map (fun a => ((a : Nat) : Int)) :=
    flatMap_pure_eq_map (List.range k) (fun a => ((a : Nat) : Int))
  rw [hR] at hcomp
  have hp0 : (((List.range k).map (fun a => ((a : Nat) : Int))).map (fun i => i))
      = (List.range k).map (fun a => ((a : Nat) : Int)) := by
    simp
  rw [hp0] at hcomp
  set P0 := (List.range k).map (fun a => ((a : Nat) : Int)) with hP0
  set E := (t.Children.enum.map
    (fun q => q.2.map (fun c => ((q.1 : Int), c)))).flatten with hE
  have hp0wf : WFuf k P0 := by
    constructor
    · rw [hP0]
      simp
    · intro x hx
      rw [hP0, getD_map_range k x _ hx]
      exact ⟨by exact_mod_cast Nat.zero_le x, le_refl _⟩
  have hEshape : ∀ e ∈ E, ∃ i j : Nat,
      e = (((i : Nat) : Int), ((j : Nat) : Int)) ∧ i < j ∧ j < k := by
    intro e he
    rw [hE, List.mem_flatten] at he
    obtain ⟨L, hL, heL⟩ := he
    rw [List.mem_map] at hL
    obtain ⟨q, hq, hLq⟩ := hL
    subst hLq
    rw [List.mem_map] at heL
    obtain ⟨c, hc, hec⟩ := heL
    have hq' := (List.mem_enum_iff_getElem?).mp hq
    obtain ⟨hq1, hq2⟩ := List.getElem?_eq_some_iff.mp hq'
    have hgd : t.Children.getD q.1 [] = q.2 := by
      rw [List.getD_eq_getElem _ _ hq1]
      exact hq2
    have hq1k : q.1 < k := by
      rw [← hlen]
      exact hq1
    have hb := hedge q.1 hq1k c (by rw [hgd]; exact hc)
    have hc0 : (0 : Int) ≤ c :=
      le_of_lt (lt_of_le_of_lt (by exact_mod_cast Nat.zero_le q.1) hb.1)
    refine ⟨q.1, c.toNat, ?_, ?_, ?_⟩
    · rw [← hec, Int.toNat_of_nonneg hc0]
    · have hcv := hb.1
      rw [← Int.toNat_of_nonneg hc0] at hcv
      exact_mod_cast hcv
    · have hcv := hb.2
      rw [← Int.toNat_of_nonneg hc0] at hcv
      exact_mod_cast hcv
  have hsnd : E.map Prod.snd = t.Children.flatten := by
    rw [hE, List.map_flatten, List.map_map]
    have hinner : ((fun x : List (NodeId × NodeId) => x.map Prod.snd)
        ∘ (fun q : Nat × List NodeId => q.2.map (fun c => ((q.1 : Int), c))))
        = (fun q : Nat × List NodeId => q.2) := by
      funext q
      simp [List.map_map]
    rw [hinner, List.enum_map_snd]
  have hEnd : (E.map Prod.snd).Nodup := by
    rw [hsnd]
    exact hnd
  have hEfix : ∀ e ∈ E, P0.getD e.2.toNat 0 = e.2 := by
    intro e he
    obtain ⟨i, j, heij, hij, hjk⟩ := hEshape e he
    rw [heij]
    simp only [Int.toNat_natCast]
    rw [hP0, getD_map_range k j _ hjk]
  have hEmem : ∀ i : Nat, i < k → ∀ c ∈ t.Children.getD i [],
      (((i : Nat) : Int), c) ∈ E := by
    intro i hi c hc
    rw [hE, List.mem_flatten]
    refine ⟨(t.Children.getD i []).map (fun c => (((i : Nat) : Int), c)), ?_, ?_⟩
    · rw [List.mem_map]
      refine ⟨(i, t.Children.getD i []), ?_, rfl⟩
      rw [List.mem_enum_iff_getElem?, List.getElem?_eq_some_iff]
      refine ⟨by rw [hlen]; exact hi, ?_⟩
      rw [List.getD_eq_getElem _ _ (by rw [hlen]; exact hi)]
    · rw [List.mem_map]
      exact ⟨c, hc, rfl⟩
  obtain ⟨hfwf, hfmono, hfconn⟩ := unionFold_spec k E P0 hp0wf hEshape hEnd hEfix
  have hconn : ∀ j : Nat, 1 ≤ j → j < k → ∃ i : Nat, i < j
      ∧ rootOf (E.foldl (fun p e => unionUF e.1 e.2 p) P0) (i : Int)
        = rootOf (E.foldl (fun p e => unionUF e.1 e.2 p) P0) (j : Int) := by
    intro j hj1 hjk
    obtain ⟨i, hik, hmem⟩ := hcover j hj1 hjk
    have hb := hedge i hik _ hmem
    have hij : i < j := by exact_mod_cast hb.1
    have he : (((i : Nat) : Int), ((j : Nat) : Int)) ∈ E := hEmem i hik _ hmem
    exact ⟨i, hij, hfconn _ he i j rfl⟩
  have hroots := roots_zero k (E.foldl (fun p e => unionUF e.1 e.2 p) P0) hfwf hconn
  have helems : ∀ c ∈ P0, ∃ i : Nat, c = ((i : Nat) : Int) ∧ i < k := by
    intro c hc
    rw [hP0, List.mem_map] at hc
    obtain ⟨a, ha, hac⟩ := hc
    exact ⟨a, hac.symm, by simpa using ha⟩
  obtain ⟨cw, cr, cor, cne1, cne2⟩ := countFold_go k P0
    (E.foldl (fun p e => unionUF e.1 e.2 p) P0) [] hfwf hroots helems (Or.inl rfl)
  have hP0ne : P0 ≠ [] := by
    intro hnil
    have : P0.length = k := by rw [hP0]; simp
    rw [hnil] at this
    simp at this
    omega
  rcases cor with hor | ⟨l, hl⟩
  · exact absurd hor (cne2 hP0ne)
  · rw [Topology.NumComponents, hcomp, hl]
    simp

theorem nodup_of_cover (CL r : List NodeId) (hsub : ∀ c ∈ CL, c ∈ r)
    (hsup : ∀ y ∈ r, y ∈ CL) (hlen : CL.length = r.length) (hr : r.Nodup) :
    CL.Nodup := by
  have hfin : r.toFinset ⊆ CL.toFinset := by
    intro x hx
    simp only [List.mem_toFinset] at hx ⊢
    exact hsup x hx
  have hcard : CL.length ≤ CL.toFinset.card := by
    calc CL.length = r.length := hlen
    _ = r.toFinset.card := (List.toFinset_card_of_nodup hr).symm
    _ ≤ CL.toFinset.card := Finset.card_le_card hfin
  have hdedup : CL.dedup.length = CL.length := by
    have h1 := List.card_toFinset CL
    have h2 := CL.toFinset_card_le
    omega
  have heq : CL.dedup = CL := (CL.dedup_sublist).eq_of_length hdedup
  rw [← heq]
  exact CL.nodup_dedup

theorem getD_map_lt (T : List NodeId) (F : NodeId → List NodeId) (i : Nat)
    (h : i < T.length) : (T.map F).getD i [] = F (T.getD i 0) := by
  rw [List.getD_eq_getElem _ _ (by simpa using h), List.getD_eq_getElem _ _ h]
  simp

theorem mem_childConcat (t : Topology) (T : List NodeId) (c : NodeId) :
    c ∈ childConcat t T ↔ ∃ x ∈ T, c ∈ t.ChildrenAt x := by
  rw [childConcat, List.mem_flatten]
  constructor
  · rintro ⟨L, hL, hcL⟩
    rw [List.mem_map] at hL
    obtain ⟨x, hx, hLx⟩ := hL
    exact ⟨x, hx, by rw [hLx]; exact hcL⟩
  · rintro ⟨x, hx, hcx⟩
    exact ⟨t.ChildrenAt x, List.mem_map_of_mem _ hx, hcx⟩

theorem topsort_traverse_facts (t : Topology) (hwfc : t.WFChildren)
    (T : List NodeId) (vis : List Bool)
    (h : dfsTraverse t (2 * t.NumNodes + 2) t.Root [] (List.replicate t.NumNodes false)
        = .ok (T, vis))
    (hr0 : 0 ≤ t.Root) (hrN : t.Root.toNat < t.NumNodes) :
    T.Nodup
    ∧ (∃ r, T = t.Root :: r)
    ∧ (∀ x ∈ T, 0 ≤ x ∧ x.toNat < t.NumNodes)
    ∧ (∀ x ∈ T, ∀ c ∈ t.ChildrenAt x, c ∈ T ∧ idxI T x < idxI T c)
    ∧ (∀ x ∈ T, x = t.Root ∨ ∃ y ∈ T, x ∈ t.ChildrenAt y ∧ idxI T y < idxI T x)
    ∧ T.length = 1 + (childConcat t T).length := by
  obtain ⟨new, hns, hlen', hinv', hhead, hrange, hfresh, hnd, hclose, hpar, hcount⟩ :=
    (dfs_sound t hwfc (2 * t.NumNodes + 2)).1 t.Root [] (List.replicate t.NumNodes false)
      T vis h (by simp) (by intro i hi; simp) hr0 hrN
  have hTn : new = T := by simpa using hns.symm
  subst hTn
  refine ⟨hnd, hhead, hrange, ?_, ?_, hcount⟩
  · intro x hx c hc
    obtain ⟨a, b, hab, hxa, hcb⟩ := hclose x hx c hc
    constructor
    · rw [hab]
      exact List.mem_append_right a hcb
    · have hnd' : (a ++ b).Nodup := hab ▸ hnd
      obtain ⟨nda, ndb, disj⟩ := List.nodup_append.mp hnd'
      have hcna : c ∉ a := fun hca => disj hca hcb
      rw [hab, idxI_append_left a b x hxa, idxI_append_right a b c hcna]
      have := idxI_lt_length a x hxa
      omega
  · intro x hx
    rcases hpar x hx with hxr | ⟨y, a, b, hab, hya, hxb, hxy⟩
    · exact Or.inl hxr
    · refine Or.inr ⟨y, by rw [hab]; exact List.mem_append_left b hya, hxy, ?_⟩
      have hnd' : (a ++ b).Nodup := hab ▸ hnd
      obtain ⟨nda, ndb, disj⟩ := List.nodup_append.mp hnd'
      have hxna : x ∉ a := fun hxa => disj hxa hxb
      rw [hab, idxI_append_left a b y hya, idxI_append_right a b x hxna]
      have := idxI_lt_length a y hya
      omega

/-- C3: for every well-formed Topology on which Topsort returns normally
(the code fails fatally instead of returning on inputs whose reachable
part is not a tree), the sorted topology has every child id strictly
greater than its parent's id, its number of connected components is 1
when the original root was set and 0 otherwise, and every entry of the
returned old-to-new map that is not NoNodeId lies in [0, new node
count). -/
theorem c3_topsort_invariants (t : Topology) (o2n : List NodeId) (t2 : Topology)
    (hwfc : t.WFChildren) (hwfr : t.WFRoot)
    (hok : t.Topsort = .ok (o2n, t2)) :
    (∀ i : Nat, i < t2.NumNodes → ∀ c ∈ t2.Children.getD i [], (i : Int) < c)
    ∧ t2.NumComponents = (if t.Root ≠ NoNodeId then 1 else 0)
    ∧ (∀ i : Nat, i < o2n.length → o2n.getD i NoNodeId ≠ NoNodeId →
        0 ≤ o2n.getD i NoNodeId ∧ o2n.getD i NoNodeId < (t2.NumNodes : Int)) := by
  rw [Topology.Topsort] at hok
  by_cases hroot : t.Root = NoNodeId
  · rw [if_neg (by simp [hroot])] at hok
    have hok2 : (buildOldToNew t.NumNodes [], (⟨NoNodeId, []⟩ : Topology))
        = (o2n, t2) := by
      simpa [Topology.remap] using hok
    simp only [Prod.mk.injEq] at hok2
    obtain ⟨ho2n, ht2⟩ := hok2
    subst ho2n
    subst ht2
    refine ⟨?_, ?_, ?_⟩
    · intro i hi
      simp [Topology.NumNodes] at hi
    · rw [if_neg (by simp [hroot])]
      rfl
    · intro i hi hne
      exfalso
      apply hne
      have hrep : buildOldToNew t.NumNodes [] = List.replicate t.NumNodes NoNodeId := rfl
      rw [hrep] at hi ⊢
      rw [List.length_replicate] at hi
      rw [List.getD_eq_getElem _ _ (by simpa using hi)]
      simp
  · rw [if_pos hroot] at hok
    split at hok
    · simp at hok
    · rename_i T vis hdfs
      simp only [Except.ok.injEq] at hok
      rw [Topology.remap] at hok
      simp only [Prod.mk.injEq] at hok
      obtain ⟨ho2n, ht2⟩ := hok
      have hr0N : 0 ≤ t.Root ∧ t.Root.toNat < t.NumNodes := by
        rcases hwfr with hwfr | hwfr
        · exact absurd hwfr hroot
        · exact hwfr
      obtain ⟨hTnd, ⟨r, hTr⟩, hrange, horder, hparent, hcount⟩ :=
        topsort_traverse_facts t hwfc T vis hdfs hr0N.1 hr0N.2
      have hk1 : 1 ≤ T.length := by
        rw [hTr]
        simp
      have hpos : ∀ y ∈ T, 0 ≤ y := fun y hy => (hrange y hy).1
      have hOTN : ∀ c ∈ T,
          (buildOldToNew t.NumNodes T).getD c.toNat NoNodeId
            = ((idxI T c : Nat) : Int) :=
        fun c hc => buildOldToNew_mem t.NumNodes T hTnd hpos c hc (hrange c hc).2
      have ht2c : t2.Children = T.map (fun o => (t.ChildrenAt o).map
          (fun c => (buildOldToNew t.NumNodes T).getD c.toNat NoNodeId)) := by
        rw [← ht2]
      have ht2r : t2.Root = 0 := by
        rw [← ht2]
        simp only []
        rw [if_neg (by omega)]
      have hN2 : t2.NumNodes = T.length := by
        rw [Topology.NumNodes, ht2c, List.length_map]
      have hedge2 : ∀ i : Nat, i < T.length → ∀ c2 ∈ t2.Children.getD i [],
          (i : Int) < c2 ∧ c2 < ((T.length : Nat) : Int) := by
        intro i hi c2 hc2
        rw [ht2c, getD_map_lt _ _ i hi] at hc2
        rw [List.mem_map] at hc2
        obtain ⟨c, hc, hgc⟩ := hc2
        have hxT : T.getD i 0 ∈ T := getD_mem' T i 0 hi
        obtain ⟨hcT, hidx⟩ := horder (T.getD i 0) hxT c hc
        rw [idxI_getD T hTnd i hi] at hidx
        rw [← hgc, hOTN c hcT]
        constructor
        · exact_mod_cast hidx
        · exact_mod_cast idxI_lt_length T c hcT
      refine ⟨?_, ?_, ?_⟩
      · intro i hi c2 hc2
        rw [hN2] at hi
        exact (hedge2 i hi c2 hc2).1
      · rw [if_pos hroot]
        refine components_one t2 T.length hN2 hk1 hedge2 ?_ ?_
        · -- concatenated children of the new topology are duplicate-free
          have hflat : t2.Children.flatten = (childConcat t T).map
              (fun c => (buildOldToNew t.NumNodes T).getD c.toNat NoNodeId) := by
            rw [ht2c]
            rw [show T.map (fun o => (t.ChildrenAt o).map
                (fun c => (buildOldToNew t.NumNodes T).getD c.toNat NoNodeId))
                = (T.map (fun o => t.ChildrenAt o)).map
                  (fun L => L.map
                    (fun c => (buildOldToNew t.NumNodes T).getD c.toNat NoNodeId))
              from (List.map_map _ _ _).symm]
            rw [← List.map_flatten]
            rfl
          have hrnd : r.Nodup := by
            rw [hTr] at hTnd
            exact (List.nodup_cons.mp hTnd).2
          have hrootnr : t.Root ∉ r := by
            rw [hTr] at hTnd
            exact (List.nodup_cons.mp hTnd).1
          have hidxR : idxI T t.Root = 0 := by
            rw [hTr, idxI, if_pos rfl]
          have hCLnd : (childConcat t T).Nodup := by
            refine nodup_of_cover (childConcat t T) r ?_ ?_ ?_ hrnd
            · intro c hc
              obtain ⟨x, hx, hcx⟩ := (mem_childConcat t T c).mp hc
              obtain ⟨hcT, hidx⟩ := horder x hx c hcx
              have hcr : c ≠ t.Root := by
                intro hc2
                rw [hc2, hidxR] at hidx
                omega
              rw [hTr] at hcT
              rcases List.mem_cons.mp hcT with hceq | hcr2
              · exact absurd hceq hcr
              · exact hcr2
            · intro y hy
              have hyT : y ∈ T := by
                rw [hTr]
                exact List.mem_cons_of_mem _ hy
              have hyr : y ≠ t.Root := by
                intro hc2
                rw [hc2] at hy
                exact hrootnr hy
              rcases hparent y hyT with hc2 | ⟨p, hpT, hyp, _⟩
              · exact absurd hc2 hyr
              · exact (mem_childConcat t T y).mpr ⟨p, hpT, hyp⟩
            · have hTlen : T.length = r.length + 1 := by
                rw [hTr]
                simp
              omega
          refine hflat ▸ List.Nodup.map_on ?_ hCLnd
          intro c1 hc1 c2 hc2 hg
          obtain ⟨x1, hx1, hcx1⟩ := (mem_childConcat t T c1).mp hc1
          obtain ⟨x2, hx2, hcx2⟩ := (mem_childConcat t T c2).mp hc2
          have hc1T := (horder x1 hx1 c1 hcx1).1
          have hc2T := (horder x2 hx2 c2 hcx2).1
          rw [hOTN c1 hc1T, hOTN c2 hc2T] at hg
          have hidxeq : idxI T c1 = idxI T c2 := by exact_mod_cast hg
          rw [← getD_idxI T c1 hc1T, hidxeq, getD_idxI T c2 hc2T]
        · -- every non-root new node is some earlier node's child
          intro j hj1 hjk
          have hxT : T.getD j 0 ∈ T := getD_mem' T j 0 hjk
          have hjx : idxI T (T.getD j 0) = j := idxI_getD T hTnd j hjk
          have hxr : T.getD j 0 ≠ t.Root := by
            intro hc
            rw [hc] at hjx
            rw [hTr, idxI, if_pos rfl] at hjx
            omega
          rcases hparent (T.getD j 0) hxT with hc | ⟨y, hyT, hxy, hylt⟩
          · exact absurd hc hxr
          · refine ⟨idxI T y, by rw [hjx] at hylt; omega, ?_⟩
            rw [ht2c, getD_map_lt _ _ (idxI T y) (idxI_lt_length T y hyT)]
            rw [getD_idxI T y hyT]
            rw [List.mem_map]
            refine ⟨T.getD j 0, hxy, ?_⟩
            rw [hOTN (T.getD j 0) hxT, hjx]
      · intro i hi hne
        rw [← ho2n] at hi hne ⊢
        rw [buildOldToNew_length] at hi
        by_cases hmem : ((i : Nat) : Int) ∈ T
        · have hv := buildOldToNew_mem t.NumNodes T hTnd hpos _ hmem
            (by rw [Int.toNat_natCast]; exact hi)
          rw [Int.toNat_natCast] at hv
          rw [hv]
          constructor
          · exact_mod_cast Nat.zero_le _
          · rw [hN2]
            exact_mod_cast idxI_lt_length T _ hmem
        · exfalso
          apply hne
          exact buildOldToNew_not_mem t.NumNodes T hpos i hi hmem

theorem c3_topsort_invariants_witness :
    (∀ i : Nat, i < (⟨0, [[1, 2], [], []]⟩ : Topology).NumNodes →
      ∀ c ∈ (⟨0, [[1, 2], [], []]⟩ : Topology).Children.getD i [], (i : Int) < c)
    ∧ (⟨0, [[1, 2], [], []]⟩ : Topology).NumComponents
        = (if (⟨1, [[], [0, 2], []]⟩ : Topology).Root ≠ NoNodeId then 1 else 0)
    ∧ (∀ i : Nat, i < ([1, 0, 2] : List NodeId).length →
        ([1, 0, 2] : List NodeId).getD i NoNodeId ≠ NoNodeId →
        0 ≤ ([1, 0, 2] : List NodeId).getD i NoNodeId
        ∧ ([1, 0, 2] : List NodeId).getD i NoNodeId
            < ((⟨0, [[1, 2], [], []]⟩ : Topology).NumNodes : Int)) :=
  c3_topsort_invariants ⟨1, [[], [0, 2], []]⟩ [1, 0, 2] ⟨0, [[1, 2], [], []]⟩
    (by rw [Topology.WFChildren]; decide)
    (by rw [Topology.WFRoot]; decide)
    (by rfl)

/-- C7: FillSpan's DFS gives each leaf a width-1 span starting at the
running token cursor, gives each internal node the span from the cursor
at which its first child starts to the right end returned by its last
child, and threads the cursor so that consecutive children are
contiguous; on the parse of `((A (B C) (D (E F) (G H))))` it yields the
spans [0,3) [0,1) [0,1) [1,3) [1,2) [1,2) [2,3) [2,3) in pre-order
node numbering. -/
theorem c7_fill_span :
    (∀ (t : Topology) (fuel : Nat) (node : NodeId) (left : Int) (spans : List Span),
      t.Leaf node = true → node.toNat < spans.length →
      dfsFillSpan t (fuel + 1) node left spans
        = some (spans.set node.toNat ⟨left, left + 1⟩, left + 1))
    ∧ (∀ (t : Topology) (fuel : Nat) (node : NodeId) (left right : Int)
        (spans spans2 : List Span),
      t.Leaf node = false →
      dfsFillSpanChildren t fuel (t.ChildrenAt node) left
          (spans.set node.toNat { spans.getD node.toNat ⟨0, 0⟩ with Left := left })
        = some (spans2, right) →
      dfsFillSpan t (fuel + 1) node left spans
        = some (spans2.set node.toNat
            { spans2.getD node.toNat ⟨0, 0⟩ with Right := right }, right))
    ∧ (∀ (t : Topology) (fuel : Nat) (left : Int) (spans : List Span),
      dfsFillSpanChildren t (fuel + 1) [] left spans = some (spans, left))
    ∧ (∀ (t : Topology) (fuel : Nat) (c : NodeId) (cs : List NodeId)
        (left mid right : Int) (spans s1 s2 : List Span),
      dfsFillSpan t fuel c left spans = some (s1, mid) →
      dfsFillSpanChildren t fuel cs mid s1 = some (s2, right) →
      dfsFillSpanChildren t (fuel + 1) (c :: cs) left spans = some (s2, right))
    ∧ (∃ pt pt' : ParseTree,
        Next "((A (B C) (D (E F) (G H))))".data = .ok (pt, [])
        ∧ pt.FillSpan = some pt'
        ∧ pt'.Span.map (fun s : Span => (s.Left, s.Right))
            = [(0, 3), (0, 1), (0, 1), (1, 3), (1, 2), (1, 2), (2, 3), (2, 3)]) := by
  refine ⟨?_, ?_, ?_, ?_, ?_⟩
  · intro t fuel node left spans h h2
    rw [dfsFillSpan]
    rw [if_pos (by simp [h])]
    rw [getD_set_self' _ _ _ _ h2, List.set_set]
  · intro t fuel node left right spans spans2 h hch
    rw [dfsFillSpan]
    rw [if_neg (by simp [h])]
    rw [hch]
  · intro t fuel left spans
    rfl
  · intro t fuel c cs left mid right spans s1 s2 h1 h2
    rw [dfsFillSpanChildren, h1]
    exact h2
  · refine ⟨⟨⟨0, [[1, 3], [2], [], [4, 6], [5], [], [7], []]⟩, none,
      ["A", "B", "C", "D", "E", "F", "G", "H"], [], [], [], []⟩,
      ⟨⟨0, [[1, 3], [2], [], [4, 6], [5], [], [7], []]⟩, none,
      ["A", "B", "C", "D", "E", "F", "G", "H"], [],
      [⟨0, 3⟩, ⟨0, 1⟩, ⟨0, 1⟩, ⟨1, 3⟩, ⟨1, 2⟩, ⟨1, 2⟩, ⟨2, 3⟩, ⟨2, 3⟩], [], []⟩,
      rfl, rfl, rfl⟩

theorem c7_fill_span_witness :
    dfsFillSpan ⟨0, [[]]⟩ (0 + 1) 0 5 [⟨9, 9⟩]
      = some (([⟨9, 9⟩] : List Span).set (Int.toNat 0) ⟨5, 5 + 1⟩, 5 + 1) :=
  c7_fill_span.1 ⟨0, [[]]⟩ 0 0 5 [⟨9, 9⟩] (by rfl) (by decide)
